import Mathlib

/-!
# Fixed-size-unit memory pool (`memory_pool/mpool.c`)

Shallow embedding of the pool allocator of `mpool.c` for an LP64 target:
`size_t` and pointers are 64 bits wide, `sizeof(void*) = 8`,
`sizeof(mpool_block_t) = 8` (one `next` pointer followed by a flexible array)
and `sizeof(mpool_t) = 56` (seven 8-byte fields).

* `size_t` values are natural numbers below `SIZE_MOD = 2 ^ 64`; every `size_t`
  operation of the source is reduced modulo `SIZE_MOD`.
* A pointer is a natural number, `NULL` is `0`.
* `Mem` gives, for an address `a`, the pointer-sized word stored by
  `*(void**)a`.  The pool only ever stores and loads words at block headers and
  at unit starts; these addresses are multiples of 8 (the alignment of `malloc`,
  a header of 8 bytes, a unit size that is a multiple of 8), so two such words
  at different addresses share no byte.
* The system allocator is an oracle `malloc : Nat → Nat` consulted at most once
  per call: it maps the requested byte count to the returned address (`0` for a
  failed allocation).
* A call whose behaviour C leaves undefined has the result `none`: the pop of
  `mpool_alloc` through a `NULL` head, and a store of `mpool_grow` past the end
  of the block it has just obtained.
* A pool handle is an `Option mpool_s`: `none` is the `NULL` handle, `some p`
  is a pointer to a control structure with contents `p`.
* `mpool_destroy` returns the pointers it passes to `free`, in call order; its
  `while` loop over the block list runs on fuel, and the fuel that suffices is
  part of what is proved.
-/

namespace MPool

/-! ## Platform constants -/

/-- Number of distinct `size_t` values (`SIZE_MAX + 1`). -/
def SIZE_MOD : Nat := 2 ^ 64

/-- `sizeof(void*)`. -/
def sizeof_ptr : Nat := 8

/-- `#define ALIGN_SIZE sizeof(void*)`. -/
def ALIGN_SIZE : Nat := sizeof_ptr

/-- `sizeof(mpool_block_t)`: the `next` pointer; the flexible array adds nothing. -/
def sizeof_mpool_block_t : Nat := 8

/-- `sizeof(mpool_t)`: two `size_t`, two pointers, three `size_t`. -/
def sizeof_mpool_t : Nat := 56

/-- `#define ALIGN(size) (((size) + (ALIGN_SIZE - 1)) & ~(ALIGN_SIZE - 1))`, on `size_t`. -/
def ALIGN (size : Nat) : Nat :=
  ((size + (ALIGN_SIZE - 1)) % SIZE_MOD) &&& (SIZE_MOD - 1 - (ALIGN_SIZE - 1))

/-! ## Data model -/

/-- `struct mpool_s`. -/
structure mpool_s where
  unit_size : Nat
  block_data_size : Nat
  block_head : Nat
  free_list_head : Nat
  total_blocks : Nat
  total_units : Nat
  free_count : Nat
deriving DecidableEq, Repr

/-- `mpool_stats_t`. -/
structure mpool_stats_t where
  unit_size : Nat
  total_blocks : Nat
  total_units : Nat
  free_units : Nat
deriving DecidableEq, Repr

/-- Pointer-sized words of memory, by address. -/
abbrev Mem := Nat → Nat

/-- The store `*(void**)a = v`. -/
def write (mem : Mem) (a v : Nat) : Mem := fun x => if x = a then v else mem x

/-! ## Operations -/

/-- `mpool_create`. -/
def mpool_create (unit_size block_size : Nat) (malloc : Nat → Nat) : Option mpool_s :=
  if unit_size = 0 ∨ block_size = 0 then none
  else if malloc sizeof_mpool_t = 0 then none
  else
    let aligned_unit := ALIGN unit_size
    let aligned_unit := if aligned_unit < sizeof_ptr then sizeof_ptr else aligned_unit
    let block_size :=
      if block_size < (sizeof_mpool_block_t + aligned_unit) % SIZE_MOD then
        (sizeof_mpool_block_t + (aligned_unit * 4) % SIZE_MOD) % SIZE_MOD
      else block_size
    some
      { unit_size := aligned_unit
        block_data_size := (block_size + SIZE_MOD - sizeof_mpool_block_t) % SIZE_MOD
        block_head := 0
        free_list_head := 0
        total_blocks := 0
        total_units := 0
        free_count := 0 }

/-- The `for` loop of `mpool_grow`: `remaining` iterations are left, the loop
counter is `i`; returns the memory and the free-list head after the loop.
`block_end` is the address one past the last byte of the block: the result is
`none` when the store `*(void**)unit_ptr` would reach past it. -/
def grow_loop (data_start block_end unit_size : Nat) :
    Nat → Nat → Mem → Nat → Option (Mem × Nat)
  | 0, _, mem, head => some (mem, head)
  | remaining + 1, i, mem, head =>
    let unit_ptr := data_start + (i * unit_size) % SIZE_MOD
    if block_end < unit_ptr + sizeof_ptr then none
    else
      grow_loop data_start block_end unit_size remaining (i + 1) (write mem unit_ptr head)
        unit_ptr

/-- Byte count `mpool_grow` requests from the system allocator. -/
def total_size (pool : mpool_s) : Nat :=
  (sizeof_mpool_block_t + pool.block_data_size) % SIZE_MOD

/-- `mpool_grow`: returns the `int` result, the control structure and memory; `none` when
the store `block->next = ...` or a store of the loop reaches past the `total_size` bytes of
the block. -/
def mpool_grow (pool : mpool_s) (mem : Mem) (malloc : Nat → Nat) :
    Option (Int × mpool_s × Mem) :=
  let total := total_size pool
  let block := malloc total
  if block = 0 then some (-1, pool, mem)
  else if total < sizeof_ptr then none
  else
    let mem := write mem block pool.block_head
    let pool := { pool with block_head := block }
    let pool := { pool with total_blocks := (pool.total_blocks + 1) % SIZE_MOD }
    let data_start := block + sizeof_mpool_block_t
    let num_units := pool.block_data_size / pool.unit_size
    match grow_loop data_start (block + total) pool.unit_size num_units 0 mem
        pool.free_list_head with
    | none => none
    | some r =>
      let pool := { pool with free_list_head := r.2 }
      let pool := { pool with total_units := (pool.total_units + num_units) % SIZE_MOD }
      let pool := { pool with free_count := (pool.free_count + num_units) % SIZE_MOD }
      some (0, pool, r.1)

/-- `mpool_alloc`.  The result is `none` when the behaviour of the call is undefined:
`mpool_grow` is, or the pop `*(void**)ptr` dereferences `NULL`; otherwise it is the
handle's control structure, the memory and the returned pointer. -/
def mpool_alloc (pool : Option mpool_s) (mem : Mem) (malloc : Nat → Nat) :
    Option (Option mpool_s × Mem × Nat) :=
  match pool with
  | none => some (none, mem, 0)
  | some pool =>
    let grown : Option (Int × mpool_s × Mem) :=
      if pool.free_list_head = 0 then mpool_grow pool mem malloc else some (0, pool, mem)
    match grown with
    | none => none
    | some g =>
      if g.1 ≠ 0 then some (some g.2.1, g.2.2, 0)
      else
        let pool := g.2.1
        let mem := g.2.2
        let ptr := pool.free_list_head
        if ptr = 0 then none
        else
          let pool := { pool with free_list_head := mem ptr }
          let pool := { pool with free_count := (pool.free_count + SIZE_MOD - 1) % SIZE_MOD }
          some (some pool, mem, ptr)

/-- `mpool_free`. -/
def mpool_free (pool : Option mpool_s) (mem : Mem) (ptr : Nat) : Option mpool_s × Mem :=
  match pool with
  | none => (none, mem)
  | some pool =>
    if ptr = 0 then (some pool, mem)
    else
      let mem := write mem ptr pool.free_list_head
      let pool := { pool with free_list_head := ptr }
      let pool := { pool with free_count := (pool.free_count + 1) % SIZE_MOD }
      (some pool, mem)

/-- `mpool_get_stats`: the contents of `*stats` after the call (`none` when
`stats` is `NULL`). -/
def mpool_get_stats (pool : Option mpool_s) (stats : Option mpool_stats_t) :
    Option mpool_stats_t :=
  match pool, stats with
  | some pool, some _ =>
    some
      { unit_size := pool.unit_size
        total_blocks := pool.total_blocks
        total_units := pool.total_units
        free_units := pool.free_count }
  | _, stats => stats

/-- The `while` loop of `mpool_destroy`: at most `fuel` iterations are run, `curr` is the
block to release next, `freed` the pointers passed to `free` so far; `none` when the fuel
is used up before `curr` is `NULL`. -/
def destroy_loop (mem : Mem) : Nat → Nat → List Nat → Option (List Nat)
  | 0, curr, freed => if curr = 0 then some freed else none
  | fuel + 1, curr, freed =>
    if curr = 0 then some freed
    else
      let next := mem curr
      destroy_loop mem fuel next (freed ++ [curr])

/-- `mpool_destroy`: the pointers passed to `free`, in call order.  `self` is the address of
the control structure (the value of a non-`NULL` handle). -/
def mpool_destroy (pool : Option mpool_s) (self : Nat) (mem : Mem) (fuel : Nat) :
    Option (List Nat) :=
  match pool with
  | none => some []
  | some pool =>
    match destroy_loop mem fuel pool.block_head [] with
    | none => none
    | some freed => some (freed ++ [self])

/-- `mpool_free` applied to each pointer of a list in turn (the release loop of the demo). -/
def mpool_free_all (pool : Option mpool_s) (mem : Mem) : List Nat → Option mpool_s × Mem
  | [] => (pool, mem)
  | ptr :: ptrs => mpool_free_all (mpool_free pool mem ptr).1 (mpool_free pool mem ptr).2 ptrs

/-- Consecutive `mpool_alloc` calls, one for each system allocator of the list; the
pointers returned, in call order. -/
def mpool_alloc_all (pool : Option mpool_s) (mem : Mem) :
    List (Nat → Nat) → Option (Option mpool_s × Mem × List Nat)
  | [] => some (pool, mem, [])
  | malloc :: rest =>
    match mpool_alloc pool mem malloc with
    | none => none
    | some (pool1, mem1, r) =>
      match mpool_alloc_all pool1 mem1 rest with
      | none => none
      | some (pool2, mem2, rs) => some (pool2, mem2, r :: rs)

/-! ## The demo program (`test.c`) -/

/-- A system allocator for the demo: the control structure is placed at `4096`, and the
block requested while the pool holds `k` blocks at `65536 * (k + 1)`. -/
def demo_malloc (pool : Option mpool_s) : Nat → Nat := fun _ =>
  match pool with
  | none => 4096
  | some p => 65536 * (p.total_blocks + 1)

/-- The allocation loop of `main`: `count` iterations are left, the loop counter is `i`;
`ptrs` collects `ptrs[0..i)`.  Of the stores into the object (`id`, `name`, `value`) the one
into its first word is kept, `id` followed by the first four characters of `"Object-%d"`:
the pool never loads another word of a unit. -/
def demo_alloc_loop : Nat → Nat → Option mpool_s → Mem → List Nat →
    Option (Option mpool_s × Mem × List Nat)
  | 0, _, pool, mem, ptrs => some (pool, mem, ptrs)
  | count + 1, i, pool, mem, ptrs =>
    match mpool_alloc pool mem (demo_malloc pool) with
    | none => none
    | some (pool, mem, ptr) =>
      let mem := if ptr ≠ 0 then write mem ptr (i + 0x656a624f * 2 ^ 32) else mem
      demo_alloc_loop count (i + 1) pool mem (ptrs ++ [ptr])

/-- The part of `main` up to the second `mpool_get_stats`: the statistics after the 100
allocations and after the release of the first 50 objects (`none` when `main` returns early
or a call has undefined behaviour). -/
def demo_main (mem : Mem) : Option (mpool_stats_t × mpool_stats_t) :=
  match mpool_create 48 4096 (demo_malloc none) with
  | none => none
  | some pool =>
    match demo_alloc_loop 100 0 (some pool) mem [] with
    | none => none
    | some (pool, mem, ptrs) =>
      match mpool_get_stats pool (some ⟨0, 0, 0, 0⟩) with
      | none => none
      | some stats =>
        match mpool_get_stats (mpool_free_all pool mem (ptrs.take 50)).1 (some stats) with
        | none => none
        | some stats2 => some (stats, stats2)

/-! ## Executions of a pool -/

/-- `num_units` of `mpool_grow`: the number of units carved out of one block. -/
def units_per_block (pool : mpool_s) : Nat := pool.block_data_size / pool.unit_size

/-- A block of `size` bytes at address `b` handed out by the system allocator while the
blocks at `blocks` (all of `size` bytes) are still allocated: it is not `NULL`, lies inside
the address space and overlaps none of them. -/
def BlockFresh (blocks : List Nat) (size b : Nat) : Prop :=
  b ≠ 0 ∧ b + size ≤ SIZE_MOD ∧ ∀ c ∈ blocks, b + size ≤ c ∨ c + size ≤ b

instance (blocks : List Nat) (size b : Nat) : Decidable (BlockFresh blocks size b) := by
  unfold BlockFresh
  infer_instance

/-- Sizes of a pool for which a block holds at least one unit and the byte count of a block
is representable: `mpool_create` produces such sizes whenever its `size_t` arithmetic on
the block size does not wrap (`create_geometry`). -/
def Geometry (pool : mpool_s) : Prop :=
  pool.unit_size ≤ pool.block_data_size ∧
    sizeof_mpool_block_t + pool.block_data_size < SIZE_MOD

instance (pool : mpool_s) : Decidable (Geometry pool) := by
  unfold Geometry
  infer_instance

/-- Bookkeeping of an execution that the code does not store: the units handed out and not
yet released, the blocks obtained from the system, the number of releases so far and the
number of `mpool_alloc` calls so far that returned a unit. -/
structure Ghost where
  live : List Nat
  blocks : List Nat
  frees : Nat
  allocs : Nat
deriving DecidableEq, Repr

/-- States reachable from the control structure `p0` and memory `m0` by calls of
`mpool_alloc` and `mpool_free` on the pool, where every `mpool_free` is given a unit that is
in use, the system allocator hands out blocks that overlap no block of the pool, and in
between the caller may store anything into the units it holds. -/
inductive Reach (p0 : mpool_s) (m0 : Mem) : mpool_s → Mem → Ghost → Prop
  | init : Reach p0 m0 p0 m0 ⟨[], [], 0, 0⟩
  | alloc_reuse {p m g} (malloc : Nat → Nat) {p1 m1 r} :
      Reach p0 m0 p m g → p.free_list_head ≠ 0 →
      mpool_alloc (some p) m malloc = some (some p1, m1, r) →
      Reach p0 m0 p1 m1 { g with live := r :: g.live, allocs := g.allocs + 1 }
  | alloc_grow {p m g} (malloc : Nat → Nat) {p1 m1 r} :
      Reach p0 m0 p m g → p.free_list_head = 0 →
      BlockFresh g.blocks (total_size p) (malloc (total_size p)) →
      mpool_alloc (some p) m malloc = some (some p1, m1, r) →
      Reach p0 m0 p1 m1
        { g with
          live := r :: g.live
          blocks := malloc (total_size p) :: g.blocks
          allocs := g.allocs + 1 }
  | alloc_fail {p m g} (malloc : Nat → Nat) {p1 m1 r} :
      Reach p0 m0 p m g → p.free_list_head = 0 → malloc (total_size p) = 0 →
      mpool_alloc (some p) m malloc = some (some p1, m1, r) →
      Reach p0 m0 p1 m1 g
  | free {p m g} (ptr : Nat) {p1 m1} :
      Reach p0 m0 p m g → ptr ∈ g.live →
      mpool_free (some p) m ptr = (some p1, m1) →
      Reach p0 m0 p1 m1 { g with live := g.live.erase ptr, frees := g.frees + 1 }
  | store {p m g} (m1 : Mem) :
      Reach p0 m0 p m g →
      (∀ a, (∀ u ∈ g.live, a < u ∨ u + p.unit_size ≤ a) → m1 a = m a) →
      Reach p0 m0 p m1 g

/-- The free list as a sequence: `l` is the chain of units reached from `head` through the
link words in memory, ending at `NULL`. -/
def Chain (mem : Mem) : Nat → List Nat → Prop
  | head, [] => head = 0
  | head, x :: xs => head = x ∧ x ≠ 0 ∧ Chain mem (mem x) xs

/-- Addresses of the units carved out of the block at `b`, in carving order. -/
def unitsOf (unit_size n b : Nat) : List Nat :=
  (List.range n).map (fun i => b + sizeof_mpool_block_t + i * unit_size)

/-- Addresses of the units carved out of all blocks of a list. -/
def allUnits (unit_size n : Nat) : List Nat → List Nat
  | [] => []
  | b :: blocks => unitsOf unit_size n b ++ allUnits unit_size n blocks

/-- Blocks of `size` bytes that are pairwise non-overlapping, not `NULL`, inside the address space. -/
def ValidBlocks (size : Nat) (blocks : List Nat) : Prop :=
  blocks.Pairwise (fun b c => b + size ≤ c ∨ c + size ≤ b) ∧
    ∀ b ∈ blocks, b ≠ 0 ∧ b + size ≤ SIZE_MOD

/-- Bytes covered by a list of blocks of `size` bytes. -/
def cover (size : Nat) : List Nat → Finset Nat
  | [] => ∅
  | b :: blocks => Finset.Ico b (b + size) ∪ cover size blocks

/-- The carving loop of `mpool_grow` when every store stays inside the block. -/
def carve (data_start unit_size : Nat) : Nat → Nat → Mem → Nat → Mem × Nat
  | 0, _, mem, head => (mem, head)
  | remaining + 1, i, mem, head =>
    carve data_start unit_size remaining (i + 1)
      (write mem (data_start + (i * unit_size) % SIZE_MOD) head)
      (data_start + (i * unit_size) % SIZE_MOD)

/-- A control structure as `mpool_create` initialises it: empty free list, zero counters,
a unit size of at least a pointer and a `size_t` block data size. -/
structure Fresh (pool : mpool_s) : Prop where
  head_eq : pool.free_list_head = 0
  total_blocks_eq : pool.total_blocks = 0
  total_units_eq : pool.total_units = 0
  free_count_eq : pool.free_count = 0
  unit_size_ge : sizeof_ptr ≤ pool.unit_size
  block_data_size_lt : pool.block_data_size < SIZE_MOD

/-- What holds of every reachable state: `fl` is the free list, as a sequence of units. -/
structure Inv (p0 p : mpool_s) (m : Mem) (g : Ghost) (fl : List Nat) : Prop where
  unit_size_eq : p.unit_size = p0.unit_size
  block_data_size_eq : p.block_data_size = p0.block_data_size
  valid : ValidBlocks (sizeof_mpool_block_t + p0.block_data_size) g.blocks
  total_blocks_eq : p.total_blocks = g.blocks.length
  total_units_eq : p.total_units = g.blocks.length * units_per_block p0
  chain : Chain m p.free_list_head fl
  free_count_eq : p.free_count = fl.length
  perm : (fl ++ g.live).Perm (allUnits p0.unit_size (units_per_block p0) g.blocks)
  no_release : g.frees = 0 → g.blocks ≠ [] → fl.length < units_per_block p0
  allocs_eq : g.allocs = g.live.length + g.frees

/-- States reachable by `mpool_alloc` and `mpool_free` calls with any pointer released, also
one not in use or not of this pool, and any stores of the caller in between; the list is
the blocks obtained from the system allocator. -/
inductive ReachAny (p0 : mpool_s) (m0 : Mem) : mpool_s → Mem → List Nat → Prop
  | init : ReachAny p0 m0 p0 m0 []
  | alloc_reuse {p m bl} (malloc : Nat → Nat) {p1 m1 r} :
      ReachAny p0 m0 p m bl → p.free_list_head ≠ 0 →
      mpool_alloc (some p) m malloc = some (some p1, m1, r) →
      ReachAny p0 m0 p1 m1 bl
  | alloc_grow {p m bl} (malloc : Nat → Nat) {p1 m1 r} :
      ReachAny p0 m0 p m bl → p.free_list_head = 0 →
      BlockFresh bl (total_size p) (malloc (total_size p)) →
      mpool_alloc (some p) m malloc = some (some p1, m1, r) →
      ReachAny p0 m0 p1 m1 (malloc (total_size p) :: bl)
  | alloc_fail {p m bl} (malloc : Nat → Nat) {p1 m1 r} :
      ReachAny p0 m0 p m bl → p.free_list_head = 0 → malloc (total_size p) = 0 →
      mpool_alloc (some p) m malloc = some (some p1, m1, r) →
      ReachAny p0 m0 p1 m1 bl
  | free {p m bl} (ptr : Nat) {p1 m1} :
      ReachAny p0 m0 p m bl →
      mpool_free (some p) m ptr = (some p1, m1) →
      ReachAny p0 m0 p1 m1 bl
  | store {p m bl} (m1 : Mem) :
      ReachAny p0 m0 p m bl → ReachAny p0 m0 p m1 bl

/-- What holds of the sizes and the block counters whatever is released. -/
structure AnyInv (p0 p : mpool_s) (bl : List Nat) : Prop where
  unit_size_eq : p.unit_size = p0.unit_size
  block_data_size_eq : p.block_data_size = p0.block_data_size
  valid : ValidBlocks (sizeof_mpool_block_t + p0.block_data_size) bl
  total_blocks_eq : p.total_blocks = bl.length
  total_units_eq : p.total_units = bl.length * units_per_block p0

/-- `ceil(k / n)`. -/
def ceil_div (k n : Nat) : Nat := (k + n - 1) / n

/-! ## A small pool, for instances of the theorems -/

/-- System allocator that answers every request with a block at `4096`. -/
def ex_malloc : Nat → Nat := fun _ => 4096

/-- System allocator that answers every request with a block at `8192`. -/
def ex_malloc2 : Nat → Nat := fun _ => 8192

/-- The control structure `mpool_create(8, 24)` returns: two units of 8 bytes per block. -/
def ex_p0 : mpool_s := ⟨8, 16, 0, 0, 0, 0, 0⟩

/-- Memory before the first call. -/
def ex_m0 : Mem := fun _ => 0

/-- Memory after the first `mpool_alloc`. -/
def ex_m1 : Mem := (carve 4104 8 2 0 (write ex_m0 4096 0) 0).1

/-- Control structure after the first `mpool_alloc`. -/
def ex_p1 : mpool_s := ⟨8, 16, 4096, 4104, 1, 2, 1⟩

/-- Control structure after the second `mpool_alloc`. -/
def ex_p2 : mpool_s := ⟨8, 16, 4096, 0, 1, 2, 0⟩

/-- Bookkeeping after the first `mpool_alloc`. -/
def ex_g1 : Ghost := ⟨[4112], [4096], 0, 1⟩

/-- Bookkeeping after the second `mpool_alloc`. -/
def ex_g2 : Ghost := ⟨[4104, 4112], [4096], 0, 2⟩

/-- The control structure `mpool_create(16, 40)` returns: two units of 16 bytes per block. -/
def ex16_p0 : mpool_s := ⟨16, 32, 0, 0, 0, 0, 0⟩

/-- Memory after the first `mpool_alloc` on `ex16_p0`. -/
def ex16_m1 : Mem := (carve 4104 16 2 0 (write ex_m0 4096 0) 0).1

/-- Control structure after the first `mpool_alloc` on `ex16_p0`. -/
def ex16_p1 : mpool_s := ⟨16, 32, 4096, 4104, 1, 2, 1⟩

/-- Bookkeeping after the first `mpool_alloc` on `ex16_p0`. -/
def ex16_g1 : Ghost := ⟨[4120], [4096], 0, 1⟩

/-! ## Alignment of the unit size -/

theorem land_align_mask (y : Nat) (hy : y < 2 ^ 64) : y &&& (2 ^ 64 - 1 - 7) = 8 * (y / 8) := by
  apply Nat.eq_of_testBit_eq
  intro i
  have hm : (2 ^ 64 - 1 - 7 : Nat) = 2 ^ 3 * (2 ^ 61 - 1) := by norm_num
  rw [Nat.testBit_and, hm, show (8 : Nat) = 2 ^ 3 by norm_num, Nat.testBit_mul_pow_two,
    Nat.testBit_mul_pow_two, Nat.testBit_two_pow_sub_one]
  by_cases h3 : 3 ≤ i
  · simp only [h3, decide_True, Bool.true_and]
    rw [← Nat.shiftRight_eq_div_pow, Nat.testBit_shiftRight]
    have hi : 3 + (i - 3) = i := by omega
    rw [hi]
    by_cases h64 : i - 3 < 61
    · simp [h64]
    · simp only [h64, decide_False, Bool.and_false]
      have hlt : y < 2 ^ i := lt_of_lt_of_le hy (Nat.pow_le_pow_right (by norm_num) (by omega))
      rw [Nat.testBit_eq_false_of_lt hlt]
  · simp [h3]

theorem ALIGN_eq (size : Nat) : ALIGN size = 8 * (((size + 7) % 2 ^ 64) / 8) := by
  unfold ALIGN ALIGN_SIZE sizeof_ptr SIZE_MOD
  exact land_align_mask _ (Nat.mod_lt _ (by norm_num))

/-- The unit size `mpool_create` stores for a requested size. -/
theorem create_unit_size {u bs : Nat} {malloc : Nat → Nat} {pool : mpool_s}
    (hc : mpool_create u bs malloc = some pool) :
    pool.unit_size = if ALIGN u < sizeof_ptr then sizeof_ptr else ALIGN u := by
  unfold mpool_create at hc
  split_ifs at hc
  simp at hc
  rw [← hc]

theorem create_unit_size_dvd {u bs : Nat} {malloc : Nat → Nat} {pool : mpool_s}
    (hc : mpool_create u bs malloc = some pool) :
    ALIGN_SIZE ∣ pool.unit_size ∧ ALIGN_SIZE ≤ pool.unit_size := by
  rw [create_unit_size hc]
  show sizeof_ptr ∣ _ ∧ sizeof_ptr ≤ _
  split_ifs with h
  · exact ⟨dvd_rfl, le_rfl⟩
  · refine ⟨?_, not_lt.mp h⟩
    rw [ALIGN_eq]
    exact Dvd.intro _ rfl

theorem Fresh.unit_size_pos {pool : mpool_s} (hf : Fresh pool) : 0 < pool.unit_size :=
  lt_of_lt_of_le (by decide) hf.unit_size_ge

/-- When `size + 7` does not wrap, `ALIGN size` is the least multiple of 8 that is `≥ size`. -/
theorem ALIGN_round_up (size : Nat) (h : size + 7 < SIZE_MOD) :
    8 ∣ ALIGN size ∧ size ≤ ALIGN size ∧ ∀ k, 8 ∣ k → size ≤ k → ALIGN size ≤ k := by
  unfold SIZE_MOD at h
  rw [ALIGN_eq, Nat.mod_eq_of_lt h]
  refine ⟨Dvd.intro _ rfl, by omega, ?_⟩
  rintro k ⟨c, rfl⟩ hk
  omega

/-- C5. For every requested unit size and block size for which `mpool_create` returns a
pool, the `unit_size` that `mpool_get_stats` reports for that pool is a multiple of
`sizeof(void*)` and is at least `sizeof(void*)`. -/
theorem stats_unit_size_aligned (u bs : Nat) (malloc : Nat → Nat) (pool : mpool_s)
    (s0 : mpool_stats_t) (hc : mpool_create u bs malloc = some pool) :
    ∃ st, mpool_get_stats (some pool) (some s0) = some st ∧
      ALIGN_SIZE ∣ st.unit_size ∧ ALIGN_SIZE ≤ st.unit_size := by
  exact ⟨_, rfl, create_unit_size_dvd hc⟩

theorem stats_unit_size_aligned_witness :
    mpool_create 48 4096 (fun _ => 65536) = some ⟨48, 4088, 0, 0, 0, 0, 0⟩ ∧
    ∃ st, mpool_get_stats
        (some ⟨48, 4088, 0, 0, 0, 0, 0⟩) (some ⟨0, 0, 0, 0⟩) = some st ∧
      ALIGN_SIZE ∣ st.unit_size ∧ ALIGN_SIZE ≤ st.unit_size :=
  ⟨by decide,
    stats_unit_size_aligned 48 4096 (fun _ => 65536) ⟨48, 4088, 0, 0, 0, 0, 0⟩ ⟨0, 0, 0, 0⟩
      (by decide)⟩


/-! ## The free list as a chain in memory -/

theorem write_same (mem : Mem) (a v : Nat) : write mem a v a = v := by
  simp [write]

theorem write_other (mem : Mem) {a x : Nat} (v : Nat) (h : x ≠ a) : write mem a v x = mem x := by
  simp [write, h]

theorem Chain.congr {m m1 : Mem} : ∀ {l : List Nat} {h : Nat},
    Chain m h l → (∀ x ∈ l, m1 x = m x) → Chain m1 h l
  | [], _, hc, _ => hc
  | x :: xs, _, ⟨h1, h2, h3⟩, hm => by
    refine ⟨h1, h2, ?_⟩
    rw [hm x (List.mem_cons_self _ _)]
    exact Chain.congr h3 (fun y hy => hm y (List.mem_cons_of_mem _ hy))

theorem Chain.eq_nil {m : Mem} {l : List Nat} (hc : Chain m 0 l) : l = [] := by
  cases l with
  | nil => rfl
  | cons x xs => exact absurd hc.1.symm hc.2.1

theorem Chain.eq_cons {m : Mem} {l : List Nat} {h : Nat} (hc : Chain m h l) (hne : h ≠ 0) :
    ∃ xs, l = h :: xs ∧ Chain m (m h) xs := by
  cases l with
  | nil => exact absurd hc hne
  | cons x xs =>
    obtain ⟨h1, -, h3⟩ := hc
    subst h1
    exact ⟨xs, rfl, h3⟩

theorem Chain.push {m : Mem} {l : List Nat} {h p : Nat} (hc : Chain m h l) (hp : p ≠ 0)
    (hnot : p ∉ l) : Chain (write m p h) p (p :: l) := by
  refine ⟨rfl, hp, ?_⟩
  rw [write_same]
  refine hc.congr (fun x hx => write_other _ _ ?_)
  rintro rfl
  exact hnot hx

/-- Units pushed by `remaining` iterations of the carving loop starting at counter `i`. -/
theorem carve_chain (ds us : Nat) (hds : ds ≠ 0) (hus : 0 < us) :
    ∀ (k i : Nat) (m : Mem) (h : Nat) (fl : List Nat),
      (i + k) * us ≤ SIZE_MOD → Chain m h fl →
      (∀ x ∈ fl, ∀ j, i ≤ j → x ≠ ds + j * us) →
      Chain (carve ds us k i m h).1 (carve ds us k i m h).2
        (((List.range' i k).map (fun j => ds + j * us)).reverse ++ fl)
  | 0, _, _, _, _, _, hc, _ => by simpa [carve] using hc
  | k + 1, i, m, h, fl, hb, hc, hfl => by
    have hlt : i * us < SIZE_MOD := by
      have h1 : (i + 1) * us ≤ (i + (k + 1)) * us := Nat.mul_le_mul_right _ (by omega)
      have h2 : (i + 1) * us = i * us + us := by ring
      omega
    have hnot : ds + i * us ∉ fl := fun hx => hfl _ hx i le_rfl rfl
    have hstep := carve_chain ds us hds hus k (i + 1) (write m (ds + i * us) h)
      (ds + i * us) ((ds + i * us) :: fl) (by rw [show i + 1 + k = i + (k + 1) by omega]; exact hb)
      (hc.push (by omega) hnot)
      (by
        intro x hx j hj
        rcases List.mem_cons.mp hx with rfl | hx
        · intro he
          have h3 : i * us < j * us := Nat.mul_lt_mul_of_pos_right (by omega) hus
          omega
        · exact hfl x hx j (by omega))
    simpa [carve, Nat.mod_eq_of_lt hlt, List.range'_succ] using hstep

theorem carve_mem_other (ds us : Nat) :
    ∀ (k i : Nat) (m : Mem) (h : Nat) (a : Nat),
      (∀ j, i ≤ j → j < i + k → a ≠ ds + (j * us) % SIZE_MOD) →
      (carve ds us k i m h).1 a = m a
  | 0, _, _, _, _, _ => rfl
  | k + 1, i, m, h, a, ha => by
    have hstep := carve_mem_other ds us k (i + 1) (write m (ds + (i * us) % SIZE_MOD) h)
      (ds + (i * us) % SIZE_MOD) a (fun j hj1 hj2 => ha j (by omega) (by omega))
    simp only [carve]
    rw [hstep, write_other _ _ (ha i le_rfl (by omega))]

/-- The loop of `mpool_grow` carves the block whenever every unit it reaches starts at least
a pointer before the end of the block. -/
theorem grow_loop_eq_carve (ds be us : Nat) :
    ∀ (k i : Nat) (m : Mem) (h : Nat),
      (∀ j, i ≤ j → j < i + k → ds + (j * us) % SIZE_MOD + sizeof_ptr ≤ be) →
      grow_loop ds be us k i m h = some (carve ds us k i m h)
  | 0, _, _, _, _ => rfl
  | k + 1, i, m, h, hb => by
    have h1 : ¬ be < ds + (i * us) % SIZE_MOD + sizeof_ptr :=
      not_lt.mpr (hb i le_rfl (by omega))
    simp only [grow_loop, carve, if_neg h1]
    exact grow_loop_eq_carve ds be us k (i + 1) _ _ (fun j hj1 hj2 => hb j (by omega) (by omega))

/-! ## Geometry of blocks and units -/

theorem mem_unitsOf {us n b u : Nat} :
    u ∈ unitsOf us n b ↔ ∃ i, i < n ∧ u = b + sizeof_mpool_block_t + i * us := by
  simp only [unitsOf, List.mem_map, List.mem_range]
  constructor
  · rintro ⟨i, hi, rfl⟩
    exact ⟨i, hi, rfl⟩
  · rintro ⟨i, hi, rfl⟩
    exact ⟨i, hi, rfl⟩

theorem mem_allUnits {us n u : Nat} : ∀ {bl : List Nat},
    u ∈ allUnits us n bl ↔ ∃ b, b ∈ bl ∧ u ∈ unitsOf us n b
  | [] => by simp [allUnits]
  | c :: bl => by
    simp only [allUnits, List.mem_append, List.mem_cons, @mem_allUnits us n u bl]
    constructor
    · rintro (h | ⟨b, hb, h⟩)
      · exact ⟨c, Or.inl rfl, h⟩
      · exact ⟨b, Or.inr hb, h⟩
    · rintro ⟨b, rfl | hb, h⟩
      · exact Or.inl h
      · exact Or.inr ⟨b, hb, h⟩

theorem length_allUnits (us n : Nat) : ∀ bl : List Nat,
    (allUnits us n bl).length = bl.length * n
  | [] => by simp [allUnits]
  | c :: bl => by
    simp only [allUnits, List.length_append, List.length_cons, length_allUnits us n bl, unitsOf,
      List.length_map, List.length_range]
    ring

/-- A unit of the block at `b` lies inside the payload of that block. -/
theorem unit_in_block {us n bds b u : Nat} (hn : n * us ≤ bds) (hu : u ∈ unitsOf us n b) :
    b + sizeof_mpool_block_t ≤ u ∧ u + us ≤ b + sizeof_mpool_block_t + bds := by
  obtain ⟨i, hi, rfl⟩ := mem_unitsOf.mp hu
  have h1 : (i + 1) * us ≤ n * us := Nat.mul_le_mul_right _ hi
  have h2 : (i + 1) * us = i * us + us := by ring
  omega

theorem units_same_block_disjoint {us n b u v : Nat} (hu : u ∈ unitsOf us n b)
    (hv : v ∈ unitsOf us n b) (hne : u ≠ v) : u + us ≤ v ∨ v + us ≤ u := by
  obtain ⟨i, -, rfl⟩ := mem_unitsOf.mp hu
  obtain ⟨j, -, rfl⟩ := mem_unitsOf.mp hv
  rcases Nat.lt_trichotomy i j with h | h | h
  · left
    have h1 : (i + 1) * us ≤ j * us := Nat.mul_le_mul_right _ h
    have h2 : (i + 1) * us = i * us + us := by ring
    omega
  · exact absurd (by rw [h]) hne
  · right
    have h1 : (j + 1) * us ≤ i * us := Nat.mul_le_mul_right _ h
    have h2 : (j + 1) * us = j * us + us := by ring
    omega

theorem blocks_symmetric (size : Nat) :
    Symmetric (fun b c : Nat => b + size ≤ c ∨ c + size ≤ b) := fun _ _ h => h.symm

/-- Two distinct carved units never overlap. -/
theorem units_disjoint {us n bds : Nat} {bl : List Nat}
    (hv : ValidBlocks (sizeof_mpool_block_t + bds) bl) (hn : n * us ≤ bds) {u v : Nat}
    (hu : u ∈ allUnits us n bl) (hw : v ∈ allUnits us n bl) (hne : u ≠ v) :
    u + us ≤ v ∨ v + us ≤ u := by
  obtain ⟨b, hb, hub⟩ := mem_allUnits.mp hu
  obtain ⟨c, hc, hvc⟩ := mem_allUnits.mp hw
  by_cases hbc : b = c
  · subst hbc
    exact units_same_block_disjoint hub hvc hne
  · have h1 := unit_in_block hn hub
    have h2 := unit_in_block hn hvc
    have h3 := hv.1.forall (blocks_symmetric _) hb hc hbc
    omega

theorem nodup_unitsOf {us n : Nat} (b : Nat) (hus : 0 < us) : (unitsOf us n b).Nodup := by
  refine List.Nodup.map ?_ (List.nodup_range n)
  intro i j hij
  have h : i * us = j * us := by
    have h0 : b + sizeof_mpool_block_t + i * us = b + sizeof_mpool_block_t + j * us := hij
    omega
  exact Nat.eq_of_mul_eq_mul_right hus h

theorem ValidBlocks.tail {size b : Nat} {bl : List Nat} (hv : ValidBlocks size (b :: bl)) :
    ValidBlocks size bl :=
  ⟨(List.pairwise_cons.mp hv.1).2, fun c hc => hv.2 c (List.mem_cons_of_mem _ hc)⟩

theorem ValidBlocks.cons {size b : Nat} {bl : List Nat} (hv : ValidBlocks size bl)
    (hb : BlockFresh bl size b) : ValidBlocks size (b :: bl) := by
  refine ⟨List.pairwise_cons.mpr ⟨hb.2.2, hv.1⟩, ?_⟩
  intro c hc
  rcases List.mem_cons.mp hc with rfl | hc
  · exact ⟨hb.1, hb.2.1⟩
  · exact hv.2 c hc

theorem nodup_allUnits {us n bds : Nat} (hus : 0 < us) (hn : n * us ≤ bds) :
    ∀ {bl : List Nat}, ValidBlocks (sizeof_mpool_block_t + bds) bl → (allUnits us n bl).Nodup
  | [], _ => by simp [allUnits]
  | b :: bl, hv => by
    refine List.Nodup.append (nodup_unitsOf b hus) (nodup_allUnits hus hn hv.tail) ?_
    intro u hu1 hu2
    obtain ⟨c, hc, huc⟩ := mem_allUnits.mp hu2
    have h1 := unit_in_block hn hu1
    have h2 := unit_in_block hn huc
    have h3 := (List.pairwise_cons.mp hv.1).1 c hc
    omega

theorem mem_cover {size x : Nat} : ∀ {bl : List Nat},
    x ∈ cover size bl → ∃ c, c ∈ bl ∧ c ≤ x ∧ x < c + size
  | [], h => by simp [cover] at h
  | b :: bl, h => by
    simp only [cover, Finset.mem_union, Finset.mem_Ico] at h
    rcases h with h | h
    · exact ⟨b, List.mem_cons_self _ _, h.1, h.2⟩
    · obtain ⟨c, hc, h1⟩ := mem_cover h
      exact ⟨c, List.mem_cons_of_mem _ hc, h1⟩

theorem card_cover {size : Nat} : ∀ {bl : List Nat},
    ValidBlocks size bl → (cover size bl).card = bl.length * size
  | [], _ => by simp [cover]
  | b :: bl, hv => by
    have hd : Disjoint (Finset.Ico b (b + size)) (cover size bl) := by
      rw [Finset.disjoint_left]
      intro x hx hx2
      obtain ⟨c, hc, h1, h2⟩ := mem_cover hx2
      have h3 := (List.pairwise_cons.mp hv.1).1 c hc
      rw [Finset.mem_Ico] at hx
      omega
    simp only [cover, List.length_cons]
    rw [Finset.card_union_of_disjoint hd, card_cover hv.tail, Nat.card_Ico]
    have h4 : b + size - b = size := by omega
    rw [h4]
    ring

/-- Pairwise non-overlapping blocks inside the address space: their sizes add up to at most
the size of the address space. -/
theorem blocks_bound {size : Nat} {bl : List Nat} (hv : ValidBlocks size bl) :
    bl.length * size ≤ SIZE_MOD := by
  have hsub : cover size bl ⊆ Finset.range SIZE_MOD := by
    intro x hx
    obtain ⟨c, hc, -, h2⟩ := mem_cover hx
    have h3 := (hv.2 c hc).2
    rw [Finset.mem_range]
    omega
  have hcard := Finset.card_le_card hsub
  rwa [card_cover hv, Finset.card_range] at hcard

/-! ## Single steps -/

theorem alloc_reuse_eq (p : mpool_s) (m : Mem) (malloc : Nat → Nat)
    (hne : p.free_list_head ≠ 0) :
    mpool_alloc (some p) m malloc =
      some (some { p with
          free_list_head := m p.free_list_head
          free_count := (p.free_count + SIZE_MOD - 1) % SIZE_MOD }, m, p.free_list_head) := by
  simp [mpool_alloc, hne]

theorem alloc_fail_eq (p : mpool_s) (m : Mem) (malloc : Nat → Nat)
    (he : p.free_list_head = 0) (hfail : malloc (total_size p) = 0) :
    mpool_alloc (some p) m malloc = some (some p, m, 0) := by
  simp [mpool_alloc, mpool_grow, he, hfail]

theorem total_size_eq {p : mpool_s} (hg : Geometry p) :
    total_size p = sizeof_mpool_block_t + p.block_data_size :=
  Nat.mod_eq_of_lt hg.2

/-- In a pool with representable blocks every store of `mpool_grow` stays inside the block. -/
theorem grow_eq (p : mpool_s) (m : Mem) (malloc : Nat → Nat) (hg : Geometry p)
    (hus : sizeof_ptr ≤ p.unit_size) (hb : malloc (total_size p) ≠ 0) :
    mpool_grow p m malloc =
      some (0, { p with
          block_head := malloc (total_size p)
          total_blocks := (p.total_blocks + 1) % SIZE_MOD
          free_list_head := (carve (malloc (total_size p) + sizeof_mpool_block_t) p.unit_size
            (p.block_data_size / p.unit_size) 0 (write m (malloc (total_size p)) p.block_head)
            p.free_list_head).2
          total_units := (p.total_units + p.block_data_size / p.unit_size) % SIZE_MOD
          free_count := (p.free_count + p.block_data_size / p.unit_size) % SIZE_MOD },
        (carve (malloc (total_size p) + sizeof_mpool_block_t) p.unit_size
            (p.block_data_size / p.unit_size) 0 (write m (malloc (total_size p)) p.block_head)
            p.free_list_head).1) := by
  have hts := total_size_eq hg
  have hsz : ¬ total_size p < sizeof_ptr := by
    rw [hts]
    unfold sizeof_ptr sizeof_mpool_block_t
    omega
  have hloop := grow_loop_eq_carve (malloc (total_size p) + sizeof_mpool_block_t)
    (malloc (total_size p) + total_size p) p.unit_size (p.block_data_size / p.unit_size) 0
    (write m (malloc (total_size p)) p.block_head) p.free_list_head (by
      intro j _ hj
      have h1 : (j + 1) * p.unit_size ≤ p.block_data_size / p.unit_size * p.unit_size :=
        Nat.mul_le_mul_right _ (by omega)
      have h2 := Nat.div_mul_le_self p.block_data_size p.unit_size
      have h3 : (j + 1) * p.unit_size = j * p.unit_size + p.unit_size := by ring
      have h4 := hg.2
      have h5 : j * p.unit_size < SIZE_MOD := by
        unfold sizeof_mpool_block_t at h4
        omega
      rw [Nat.mod_eq_of_lt h5, hts]
      omega)
  simp only [mpool_grow, if_neg hb, if_neg hsz, hloop]

theorem free_eq (p : mpool_s) (m : Mem) {ptr : Nat} (hp : ptr ≠ 0) :
    mpool_free (some p) m ptr =
      (some { p with
          free_list_head := ptr
          free_count := (p.free_count + 1) % SIZE_MOD }, write m ptr p.free_list_head) := by
  simp [mpool_free, hp]

theorem units_per_block_pos {p0 : mpool_s} (hf : Fresh p0) (hg : Geometry p0) :
    0 < units_per_block p0 :=
  Nat.div_pos hg.1 hf.unit_size_pos

theorem units_fit (p0 : mpool_s) : units_per_block p0 * p0.unit_size ≤ p0.block_data_size :=
  Nat.div_mul_le_self _ _

/-- Counters of a pool with pairwise non-overlapping blocks do not wrap. -/
theorem counter_bounds {p0 : mpool_s} {bl : List Nat}
    (hv : ValidBlocks (sizeof_mpool_block_t + p0.block_data_size) bl) :
    bl.length * units_per_block p0 + bl.length * 8 ≤ SIZE_MOD := by
  have h1 := blocks_bound hv
  have h2 : units_per_block p0 ≤ p0.block_data_size := Nat.div_le_self _ _
  have h3 : bl.length * units_per_block p0 ≤ bl.length * p0.block_data_size :=
    Nat.mul_le_mul_left _ h2
  have h4 : bl.length * (sizeof_mpool_block_t + p0.block_data_size) =
      bl.length * 8 + bl.length * p0.block_data_size := by
    unfold sizeof_mpool_block_t
    ring
  omega

theorem SIZE_MOD_pos : 0 < SIZE_MOD := by
  unfold SIZE_MOD
  norm_num

theorem unit_ne_zero {us n : Nat} {bl : List Nat} {u : Nat} (hu : u ∈ allUnits us n bl) :
    u ≠ 0 := by
  obtain ⟨b, -, hb⟩ := mem_allUnits.mp hu
  obtain ⟨i, -, rfl⟩ := mem_unitsOf.mp hb
  unfold sizeof_mpool_block_t
  omega

theorem Inv.nodup {p0 p : mpool_s} {m : Mem} {g : Ghost} {fl : List Nat}
    (hf : Fresh p0) (hi : Inv p0 p m g fl) : (fl ++ g.live).Nodup :=
  hi.perm.nodup_iff.mpr (nodup_allUnits hf.unit_size_pos (units_fit p0) hi.valid)

theorem Inv.length_eq {p0 p : mpool_s} {m : Mem} {g : Ghost} {fl : List Nat}
    (hi : Inv p0 p m g fl) :
    fl.length + g.live.length = g.blocks.length * units_per_block p0 := by
  have h := hi.perm.length_eq
  rwa [List.length_append, length_allUnits] at h

/-! ## Preservation of the invariant -/

theorem Inv.alloc_reuse {p0 p : mpool_s} {m : Mem} {g : Ghost} {fl : List Nat}
    (hi : Inv p0 p m g fl) (hne : p.free_list_head ≠ 0) :
    ∃ xs, fl = p.free_list_head :: xs ∧
      Inv p0 { p with
          free_list_head := m p.free_list_head
          free_count := (p.free_count + SIZE_MOD - 1) % SIZE_MOD } m
        { g with live := p.free_list_head :: g.live, allocs := g.allocs + 1 } xs := by
  obtain ⟨xs, hxs, hch⟩ := hi.chain.eq_cons hne
  refine ⟨xs, hxs, ?_⟩
  have hlen := hi.length_eq
  have hb := counter_bounds hi.valid
  have hfc := hi.free_count_eq
  rw [hxs] at hlen hfc
  simp only [List.length_cons] at hlen hfc
  refine
    { unit_size_eq := hi.unit_size_eq
      block_data_size_eq := hi.block_data_size_eq
      valid := hi.valid
      total_blocks_eq := hi.total_blocks_eq
      total_units_eq := hi.total_units_eq
      chain := hch
      free_count_eq := ?_
      perm := ?_
      no_release := ?_
      allocs_eq := ?_ }
  · show (p.free_count + SIZE_MOD - 1) % SIZE_MOD = xs.length
    rw [hfc, show xs.length + 1 + SIZE_MOD - 1 = xs.length + SIZE_MOD by omega,
      Nat.add_mod_right, Nat.mod_eq_of_lt (by omega)]
  · have hp := hi.perm
    rw [hxs] at hp
    exact List.perm_middle.trans hp
  · intro h0 hne0
    have h1 := hi.no_release h0 hne0
    rw [hxs] at h1
    simp only [List.length_cons] at h1
    omega
  · show g.allocs + 1 = (p.free_list_head :: g.live).length + g.frees
    rw [hi.allocs_eq, List.length_cons]
    omega

theorem Inv.free {p0 p : mpool_s} {m : Mem} {g : Ghost} {fl : List Nat}
    (hf : Fresh p0) (hi : Inv p0 p m g fl) {ptr : Nat} (hin : ptr ∈ g.live) :
    ptr ≠ 0 ∧
      Inv p0 { p with
          free_list_head := ptr
          free_count := (p.free_count + 1) % SIZE_MOD } (write m ptr p.free_list_head)
        { g with live := g.live.erase ptr, frees := g.frees + 1 } (ptr :: fl) := by
  have hmem : ptr ∈ allUnits p0.unit_size (units_per_block p0) g.blocks :=
    hi.perm.subset (List.mem_append_right _ hin)
  have hp0 : ptr ≠ 0 := unit_ne_zero hmem
  have hnot : ptr ∉ fl := fun hx => (List.nodup_append.mp (hi.nodup hf)).2.2 hx hin
  have hlen := hi.length_eq
  have hb := counter_bounds hi.valid
  have hpos : 0 < g.live.length := List.length_pos_of_mem hin
  have hB : 0 < g.blocks.length := by
    rcases Nat.eq_zero_or_pos g.blocks.length with h | h
    · rw [h] at hlen
      omega
    · exact h
  refine ⟨hp0,
    { unit_size_eq := hi.unit_size_eq
      block_data_size_eq := hi.block_data_size_eq
      valid := hi.valid
      total_blocks_eq := hi.total_blocks_eq
      total_units_eq := hi.total_units_eq
      chain := hi.chain.push hp0 hnot
      free_count_eq := ?_
      perm := ?_
      no_release := ?_
      allocs_eq := ?_ }⟩
  · show (p.free_count + 1) % SIZE_MOD = (ptr :: fl).length
    rw [hi.free_count_eq, List.length_cons, Nat.mod_eq_of_lt (by omega)]
  · have h1 : (fl ++ g.live).Perm (ptr :: (fl ++ g.live.erase ptr)) :=
      ((List.perm_cons_erase hin).append_left fl).trans List.perm_middle
    exact h1.symm.trans hi.perm
  · intro h0
    exact absurd h0 (Nat.succ_ne_zero _)
  · show g.allocs = (g.live.erase ptr).length + (g.frees + 1)
    rw [hi.allocs_eq, List.length_erase_of_mem hin]
    omega

theorem Inv.store {p0 p : mpool_s} {m m1 : Mem} {g : Ghost} {fl : List Nat}
    (hf : Fresh p0) (hi : Inv p0 p m g fl)
    (hm : ∀ a, (∀ u ∈ g.live, a < u ∨ u + p.unit_size ≤ a) → m1 a = m a) :
    Inv p0 p m1 g fl := by
  refine { hi with chain := hi.chain.congr (fun x hx => hm x ?_) }
  intro u hu
  have hx1 : x ∈ allUnits p0.unit_size (units_per_block p0) g.blocks :=
    hi.perm.subset (List.mem_append_left _ hx)
  have hu1 : u ∈ allUnits p0.unit_size (units_per_block p0) g.blocks :=
    hi.perm.subset (List.mem_append_right _ hu)
  have hne : x ≠ u := by
    rintro rfl
    exact (List.nodup_append.mp (hi.nodup hf)).2.2 hx hu
  have hd := units_disjoint hi.valid (units_fit p0) hx1 hu1 hne
  have hpos := hf.unit_size_pos
  rw [hi.unit_size_eq]
  omega

theorem alloc_grow_eq (p : mpool_s) (m : Mem) (malloc : Nat → Nat)
    (he : p.free_list_head = 0) {q : mpool_s} {mq : Mem}
    (hgrow : mpool_grow p m malloc = some (0, q, mq)) :
    mpool_alloc (some p) m malloc =
      if q.free_list_head = 0 then none
      else some (some { q with
          free_list_head := mq q.free_list_head
          free_count := (q.free_count + SIZE_MOD - 1) % SIZE_MOD }, mq, q.free_list_head) := by
  simp [mpool_alloc, he, hgrow]

/-- A growth that is followed by a pop happens in a pool whose blocks hold a unit and have a
representable byte count: otherwise the store of the block header reaches past the block, or
no unit is carved and the pop dereferences `NULL`. -/
theorem alloc_defined_geometry {p : mpool_s} {m : Mem} {malloc : Nat → Nat}
    (hbds : p.block_data_size < SIZE_MOD) (he : p.free_list_head = 0)
    (hb : malloc (total_size p) ≠ 0) {x : Option mpool_s × Mem × Nat}
    (hstep : mpool_alloc (some p) m malloc = some x) : Geometry p := by
  by_contra hng
  have hnone : mpool_alloc (some p) m malloc = none := by
    by_cases hw : sizeof_mpool_block_t + p.block_data_size < SIZE_MOD
    · have hlt : p.block_data_size < p.unit_size := by
        by_contra hle
        exact hng ⟨not_lt.mp hle, hw⟩
      have hn : p.block_data_size / p.unit_size = 0 := Nat.div_eq_of_lt hlt
      have hts : ¬ total_size p < sizeof_ptr := by
        unfold total_size
        rw [Nat.mod_eq_of_lt hw]
        unfold sizeof_ptr sizeof_mpool_block_t
        omega
      simp [mpool_alloc, mpool_grow, he, hb, hts, hn, grow_loop]
    · have hts : total_size p < sizeof_ptr := by
        unfold total_size sizeof_ptr
        unfold sizeof_mpool_block_t SIZE_MOD at *
        omega
      simp [mpool_alloc, mpool_grow, he, hb, hts]
  rw [hnone] at hstep
  exact absurd hstep (by simp)

theorem Inv.alloc_grow {p0 p : mpool_s} {m : Mem} {g : Ghost} {fl : List Nat}
    (hf : Fresh p0) (hg : Geometry p0) (hi : Inv p0 p m g fl) (he : p.free_list_head = 0)
    (malloc : Nat → Nat)
    (hfresh : BlockFresh g.blocks (total_size p) (malloc (total_size p))) :
    ∃ p1 m1 r xs, mpool_alloc (some p) m malloc = some (some p1, m1, r) ∧
      r :: xs = (unitsOf p0.unit_size (units_per_block p0) (malloc (total_size p))).reverse ∧
      Inv p0 p1 m1
        { g with
          live := r :: g.live
          blocks := malloc (total_size p) :: g.blocks
          allocs := g.allocs + 1 } xs ∧
      p1.total_blocks = p.total_blocks + 1 ∧
      p1.total_units = p.total_units + units_per_block p := by
  have hts : total_size p = sizeof_mpool_block_t + p0.block_data_size := by
    unfold total_size
    rw [hi.block_data_size_eq]
    exact Nat.mod_eq_of_lt hg.2
  have hn : p.block_data_size / p.unit_size = units_per_block p0 := by
    rw [hi.block_data_size_eq, hi.unit_size_eq]
    rfl
  have hn1 : units_per_block p = units_per_block p0 := hn
  generalize hbdef : malloc (total_size p) = b at hfresh ⊢
  rw [hts] at hfresh
  have hb : b ≠ 0 := hfresh.1
  have hfl : fl = [] := by
    have hc := hi.chain
    rw [he] at hc
    exact hc.eq_nil
  subst hfl
  have hv := hi.valid.cons hfresh
  have hbound := @counter_bounds p0 _ hv
  have hpos := units_per_block_pos hf hg
  have hfit := units_fit p0
  have hg2 : sizeof_mpool_block_t + p0.block_data_size < SIZE_MOD := hg.2
  have hfc0 : p.free_count = 0 := hi.free_count_eq
  have hlen := hi.length_eq
  simp only [List.length_cons, List.length_nil, Nat.zero_add] at hbound hlen
  have hchain := carve_chain (b + sizeof_mpool_block_t) p0.unit_size (by omega) hf.unit_size_pos
    (units_per_block p0) 0 (write m b p.block_head) 0 [] (by rw [Nat.zero_add]; omega) rfl
    (by simp)
  rw [List.append_nil, ← List.range_eq_range'] at hchain
  have hgp : Geometry p := by
    unfold Geometry
    rw [hi.block_data_size_eq, hi.unit_size_eq]
    exact hg
  have hgrow := grow_eq p m malloc hgp (by rw [hi.unit_size_eq]; exact hf.unit_size_ge)
    (by rw [hbdef]; exact hb)
  rw [hbdef, hn, hi.unit_size_eq, he] at hgrow
  rw [alloc_grow_eq p m malloc he hgrow]
  simp only []
  have hlist : ((List.range (units_per_block p0)).map
      (fun j => b + sizeof_mpool_block_t + j * p0.unit_size)).reverse =
      (unitsOf p0.unit_size (units_per_block p0) b).reverse := rfl
  rw [hlist] at hchain
  have hlenl : (unitsOf p0.unit_size (units_per_block p0) b).reverse.length =
      units_per_block p0 := by
    simp [unitsOf]
  cases hl : (unitsOf p0.unit_size (units_per_block p0) b).reverse with
  | nil =>
    rw [hl] at hlenl
    simp at hlenl
    omega
  | cons x xs =>
    rw [hl] at hchain hlenl
    obtain ⟨hhead, hx0, hrest⟩ := hchain
    simp only [List.length_cons] at hlenl
    have hB : g.blocks.length * units_per_block p0 + units_per_block p0 =
        (g.blocks.length + 1) * units_per_block p0 := by ring
    rw [hhead, if_neg hx0]
    refine ⟨_, _, _, xs, rfl, rfl, ?_, ?_, ?_⟩
    · refine
        { unit_size_eq := rfl
          block_data_size_eq := hi.block_data_size_eq
          valid := hv
          total_blocks_eq := ?_
          total_units_eq := ?_
          chain := ?_
          free_count_eq := ?_
          perm := ?_
          no_release := ?_
          allocs_eq := ?_ }
      · show (p.total_blocks + 1) % SIZE_MOD = (b :: g.blocks).length
        rw [hi.total_blocks_eq, List.length_cons, Nat.mod_eq_of_lt (by omega)]
      · show (p.total_units + units_per_block p0) % SIZE_MOD =
          (b :: g.blocks).length * units_per_block p0
        rw [hi.total_units_eq, List.length_cons, hB, Nat.mod_eq_of_lt (by omega)]
      · exact hrest
      · show ((p.free_count + units_per_block p0) % SIZE_MOD + SIZE_MOD - 1) % SIZE_MOD =
          xs.length
        have h1 : units_per_block p0 % SIZE_MOD = units_per_block p0 :=
          Nat.mod_eq_of_lt (by omega)
        rw [hfc0, Nat.zero_add, h1, ← hlenl,
          show xs.length + 1 + SIZE_MOD - 1 = xs.length + SIZE_MOD by omega,
          Nat.add_mod_right, Nat.mod_eq_of_lt (by omega)]
      · have hp : g.live.Perm (allUnits p0.unit_size (units_per_block p0) g.blocks) := by
          simpa using hi.perm
        have hr : (x :: xs).Perm (unitsOf p0.unit_size (units_per_block p0) b) := by
          rw [← hl]
          exact List.reverse_perm _
        exact List.perm_middle.trans (hr.append hp)
      · intro _ _
        omega
      · show g.allocs + 1 = (x :: g.live).length + g.frees
        rw [hi.allocs_eq, List.length_cons]
        omega
    · show (p.total_blocks + 1) % SIZE_MOD = p.total_blocks + 1
      rw [hi.total_blocks_eq, Nat.mod_eq_of_lt (by omega)]
    · show (p.total_units + units_per_block p0) % SIZE_MOD = p.total_units + units_per_block p
      rw [hn1, hi.total_units_eq, hB, Nat.mod_eq_of_lt (by omega)]

theorem Inv.init {p0 : mpool_s} (m0 : Mem) (hf : Fresh p0) :
    Inv p0 p0 m0 ⟨[], [], 0, 0⟩ [] :=
  { unit_size_eq := rfl
    block_data_size_eq := rfl
    valid := ⟨List.Pairwise.nil, fun _ h => absurd h (List.not_mem_nil _)⟩
    total_blocks_eq := hf.total_blocks_eq
    total_units_eq := by simpa using hf.total_units_eq
    chain := hf.head_eq
    free_count_eq := hf.free_count_eq
    perm := List.Perm.refl _
    no_release := fun _ h => absurd rfl h
    allocs_eq := rfl }

theorem Inv.geometry_of_alloc {p0 p : mpool_s} {m : Mem} {g : Ghost} {fl : List Nat}
    (hf : Fresh p0) (hi : Inv p0 p m g fl) (he : p.free_list_head = 0) {malloc : Nat → Nat}
    (hb : malloc (total_size p) ≠ 0) {x : Option mpool_s × Mem × Nat}
    (hstep : mpool_alloc (some p) m malloc = some x) : Geometry p0 := by
  have hgp : Geometry p :=
    alloc_defined_geometry (by rw [hi.block_data_size_eq]; exact hf.block_data_size_lt) he hb
      hstep
  unfold Geometry at hgp ⊢
  rw [← hi.block_data_size_eq, ← hi.unit_size_eq]
  exact hgp

/-- Every reachable state satisfies the invariant for some free list. -/
theorem reach_inv {p0 p : mpool_s} {m0 m : Mem} {g : Ghost} (hf : Fresh p0)
    (hr : Reach p0 m0 p m g) : ∃ fl, Inv p0 p m g fl := by
  induction hr with
  | init => exact ⟨[], Inv.init m0 hf⟩
  | alloc_reuse malloc _ hne hstep ih =>
    obtain ⟨fl, hi⟩ := ih
    obtain ⟨xs, -, hi1⟩ := hi.alloc_reuse hne
    rw [alloc_reuse_eq _ _ _ hne] at hstep
    simp only [Option.some.injEq, Prod.mk.injEq] at hstep
    obtain ⟨rfl, rfl, rfl⟩ := hstep
    exact ⟨xs, hi1⟩
  | alloc_grow malloc _ he hfresh hstep ih =>
    obtain ⟨fl, hi⟩ := ih
    have hg := hi.geometry_of_alloc hf he hfresh.1 hstep
    obtain ⟨p2, m2, r2, xs, heq, -, hi1, -, -⟩ := hi.alloc_grow hf hg he malloc hfresh
    rw [heq] at hstep
    simp only [Option.some.injEq, Prod.mk.injEq] at hstep
    obtain ⟨rfl, rfl, rfl⟩ := hstep
    exact ⟨xs, hi1⟩
  | alloc_fail malloc _ he hfail hstep ih =>
    obtain ⟨fl, hi⟩ := ih
    rw [alloc_fail_eq _ _ _ he hfail] at hstep
    simp only [Option.some.injEq, Prod.mk.injEq] at hstep
    obtain ⟨rfl, rfl, -⟩ := hstep
    exact ⟨fl, hi⟩
  | free ptr _ hin hstep ih =>
    obtain ⟨fl, hi⟩ := ih
    obtain ⟨hp, hi1⟩ := hi.free hf hin
    rw [free_eq _ _ hp] at hstep
    simp only [Prod.mk.injEq, Option.some.injEq] at hstep
    obtain ⟨rfl, rfl⟩ := hstep
    exact ⟨_, hi1⟩
  | store m1 _ hm ih =>
    obtain ⟨fl, hi⟩ := ih
    exact ⟨fl, hi.store hf hm⟩

theorem create_fresh {u bs : Nat} {malloc : Nat → Nat} {pool : mpool_s}
    (hc : mpool_create u bs malloc = some pool) : Fresh pool := by
  have hus := (create_unit_size_dvd hc).2
  unfold mpool_create at hc
  split_ifs at hc
  simp only [Option.some.injEq] at hc
  refine ⟨by rw [← hc], by rw [← hc], by rw [← hc], by rw [← hc], hus, ?_⟩
  rw [← hc]
  exact Nat.mod_lt _ SIZE_MOD_pos

/-- The sizes `mpool_create` stores satisfy `Geometry` whenever the requested block size
holds a header and a unit, or four units do not exceed the address space. -/
theorem create_geometry {u bs : Nat} {malloc : Nat → Nat} {pool : mpool_s}
    (hc : mpool_create u bs malloc = some pool) (hbs : bs < SIZE_MOD)
    (h : pool.unit_size + 8 ≤ bs ∨ pool.unit_size < 2 ^ 62) : Geometry pool := by
  have hus := create_unit_size hc
  obtain ⟨⟨c, hc8⟩, -⟩ := create_unit_size_dvd hc
  unfold ALIGN_SIZE sizeof_ptr at hc8
  unfold mpool_create at hc
  split_ifs at hc
  simp only [Option.some.injEq] at hc
  rw [← hus] at hc
  have hbd : pool.block_data_size =
      ((if bs < (sizeof_mpool_block_t + pool.unit_size) % SIZE_MOD then
        (sizeof_mpool_block_t + (pool.unit_size * 4) % SIZE_MOD) % SIZE_MOD
      else bs) + SIZE_MOD - sizeof_mpool_block_t) % SIZE_MOD := by
    rw [← hc]
  unfold Geometry
  rw [hbd]
  unfold sizeof_mpool_block_t SIZE_MOD at *
  by_cases hA : pool.unit_size + 8 ≤ bs
  · rw [Nat.mod_eq_of_lt (show 8 + pool.unit_size < 2 ^ 64 by omega), if_neg (by omega),
      show bs + 2 ^ 64 - 8 = bs - 8 + 2 ^ 64 by omega, Nat.add_mod_right,
      Nat.mod_eq_of_lt (by omega)]
    omega
  · have hB : pool.unit_size < 2 ^ 62 := by
      rcases h with h | h
      · exact absurd h hA
      · exact h
    rw [Nat.mod_eq_of_lt (show 8 + pool.unit_size < 2 ^ 64 by omega), if_pos (by omega),
      Nat.mod_eq_of_lt (show pool.unit_size * 4 < 2 ^ 64 by omega),
      Nat.mod_eq_of_lt (show 8 + pool.unit_size * 4 < 2 ^ 64 by omega),
      show 8 + pool.unit_size * 4 + 2 ^ 64 - 8 = pool.unit_size * 4 + 2 ^ 64 by omega,
      Nat.add_mod_right, Nat.mod_eq_of_lt (by omega)]
    omega

/-! ## Invariants of reachable states -/

/-- C1. In every state reachable from a freshly created pool by `mpool_alloc` and
`mpool_free` calls in which every release is given a unit in use, the free count plus the
number of units in use equals `total_units`. -/
theorem free_count_conservation (u bs : Nat) (malloc0 : Nat → Nat) (p0 p : mpool_s)
    (m0 m : Mem) (g : Ghost) (hc : mpool_create u bs malloc0 = some p0)
    (hr : Reach p0 m0 p m g) :
    p.free_count + g.live.length = p.total_units := by
  obtain ⟨fl, hi⟩ := reach_inv (create_fresh hc) hr
  rw [hi.free_count_eq, hi.total_units_eq, hi.length_eq]

/-- C3. In every reachable state any two distinct units in use have non-overlapping byte
ranges `[p, p + unit_size)`, no unit is in use twice, and a further `mpool_alloc` (with a
system allocator that fails or hands out a non-overlapping block) never returns an address
that is in use. -/
theorem live_units_disjoint (u bs : Nat) (malloc0 : Nat → Nat) (p0 p : mpool_s)
    (m0 m : Mem) (g : Ghost) (hc : mpool_create u bs malloc0 = some p0)
    (hr : Reach p0 m0 p m g) :
    (∀ a ∈ g.live, ∀ b ∈ g.live, a ≠ b → a + p.unit_size ≤ b ∨ b + p.unit_size ≤ a) ∧
      g.live.Nodup ∧
      ∀ (malloc : Nat → Nat) (p1 : mpool_s) (m1 : Mem) (r : Nat),
        (malloc (total_size p) = 0 ∨
          BlockFresh g.blocks (total_size p) (malloc (total_size p))) →
        mpool_alloc (some p) m malloc = some (some p1, m1, r) → r ∉ g.live := by
  have hf := create_fresh hc
  obtain ⟨fl, hi⟩ := reach_inv hf hr
  have hnd := hi.nodup hf
  refine ⟨?_, (List.nodup_append.mp hnd).2.1, ?_⟩
  · intro a ha b hb hab
    rw [hi.unit_size_eq]
    exact units_disjoint hi.valid (units_fit p0)
      (hi.perm.subset (List.mem_append_right _ ha))
      (hi.perm.subset (List.mem_append_right _ hb)) hab
  · intro malloc p1 m1 r hmal hstep
    by_cases hne : p.free_list_head = 0
    · rcases hmal with hfail | hfresh
      · rw [alloc_fail_eq _ _ _ hne hfail] at hstep
        simp only [Option.some.injEq, Prod.mk.injEq] at hstep
        obtain ⟨-, -, rfl⟩ := hstep
        intro h0
        exact unit_ne_zero (hi.perm.subset (List.mem_append_right _ h0)) rfl
      · obtain ⟨fl1, hi1⟩ := reach_inv hf (Reach.alloc_grow malloc hr hne hfresh hstep)
        exact (List.nodup_cons.mp (List.nodup_append.mp (hi1.nodup hf)).2.1).1
    · obtain ⟨fl1, hi1⟩ := reach_inv hf (Reach.alloc_reuse malloc hr hne hstep)
      exact (List.nodup_cons.mp (List.nodup_append.mp (hi1.nodup hf)).2.1).1

/-- C4. In a reachable state whose free list is empty, an `mpool_alloc` whose system block
allocation succeeds and that returns has increased `total_blocks` by exactly 1 and
`total_units` by exactly `block_data_size / unit_size`, and it does return a unit whenever
a block holds a unit and has a representable byte count; for every pool whose free list
is non-empty, `mpool_alloc` returns a unit and leaves `total_blocks` and `total_units`
unchanged. -/
theorem growth_correct (u bs : Nat) (malloc0 : Nat → Nat) (p0 p : mpool_s)
    (m0 m : Mem) (g : Ghost) (hc : mpool_create u bs malloc0 = some p0)
    (hr : Reach p0 m0 p m g) (malloc : Nat → Nat) :
    (p.free_list_head = 0 →
      BlockFresh g.blocks (total_size p) (malloc (total_size p)) →
      (∀ p1 m1 r, mpool_alloc (some p) m malloc = some (some p1, m1, r) →
        r ≠ 0 ∧ p1.total_blocks = p.total_blocks + 1 ∧
        p1.total_units = p.total_units + p.block_data_size / p.unit_size) ∧
      (Geometry p0 → ∃ p1 m1 r, mpool_alloc (some p) m malloc = some (some p1, m1, r))) ∧
    ∀ (q : mpool_s) (mq : Mem), q.free_list_head ≠ 0 →
      ∃ q1 m1 r, mpool_alloc (some q) mq malloc = some (some q1, m1, r) ∧ r ≠ 0 ∧
        q1.total_blocks = q.total_blocks ∧ q1.total_units = q.total_units := by
  have hf := create_fresh hc
  obtain ⟨fl, hi⟩ := reach_inv hf hr
  constructor
  · intro he hfresh
    constructor
    · intro p1 m1 r hstep
      have hg := hi.geometry_of_alloc hf he hfresh.1 hstep
      obtain ⟨p2, m2, r2, xs, heq, -, hi1, hb, hu⟩ := hi.alloc_grow hf hg he malloc hfresh
      rw [heq] at hstep
      simp only [Option.some.injEq, Prod.mk.injEq] at hstep
      obtain ⟨rfl, rfl, rfl⟩ := hstep
      refine ⟨?_, hb, hu⟩
      exact unit_ne_zero (hi1.perm.subset (List.mem_append_right _ (List.mem_cons_self _ _)))
    · intro hg
      obtain ⟨p1, m1, r, xs, heq, -⟩ := hi.alloc_grow hf hg he malloc hfresh
      exact ⟨p1, m1, r, heq⟩
  · intro q mq hne
    exact ⟨_, _, _, alloc_reuse_eq q mq malloc hne, hne, rfl, rfl⟩

/-- C2. In every reachable state, for two distinct units `A` and `B` in use, after
`mpool_free(pool, A)` and then `mpool_free(pool, B)` the next `mpool_alloc` returns `B` and
the one after it returns `A`, whatever the system allocator would answer; neither call
acquires a block, and the free list and the counters are then as before the two releases. -/
theorem lifo_reuse (u bs : Nat) (malloc0 : Nat → Nat) (p0 p : mpool_s)
    (m0 m : Mem) (g : Ghost) (hc : mpool_create u bs malloc0 = some p0)
    (hr : Reach p0 m0 p m g) (A B : Nat) (hA : A ∈ g.live) (hB : B ∈ g.live) (hAB : A ≠ B)
    (malloc1 malloc2 : Nat → Nat) :
    ∃ p3 m3 p4 m4,
      mpool_alloc (mpool_free_all (some p) m [A, B]).1 (mpool_free_all (some p) m [A, B]).2
        malloc1 = some (some p3, m3, B) ∧
      mpool_alloc (some p3) m3 malloc2 = some (some p4, m4, A) ∧
      p3.total_blocks = p.total_blocks ∧ p3.total_units = p.total_units ∧
      p3.block_head = p.block_head ∧
      p4.total_blocks = p.total_blocks ∧ p4.total_units = p.total_units ∧
      p4.block_head = p.block_head ∧
      p4.free_list_head = p.free_list_head ∧ p4.free_count = p.free_count := by
  have hf := create_fresh hc
  obtain ⟨fl, hi⟩ := reach_inv hf hr
  obtain ⟨hA0, hi1⟩ := hi.free hf hA
  have hB1 : B ∈ g.live.erase A := (List.mem_erase_of_ne hAB.symm).mpr hB
  obtain ⟨hB0, hi2⟩ := hi1.free hf hB1
  have hfc : p.free_count + 2 < SIZE_MOD := by
    have h1 : (B :: A :: fl).length + ((g.live.erase A).erase B).length =
        g.blocks.length * units_per_block p0 := hi2.length_eq
    have h2 : g.blocks.length * units_per_block p0 + g.blocks.length * 8 ≤ SIZE_MOD :=
      counter_bounds hi2.valid
    have h3 := hi.free_count_eq
    simp only [List.length_cons] at h1
    rcases Nat.eq_zero_or_pos g.blocks.length with h | h
    · simp only [h, Nat.zero_mul] at h1
      omega
    · omega
  have hmB : write (write m A p.free_list_head) B A B = A := write_same _ _ _
  have hmA : write (write m A p.free_list_head) B A A = p.free_list_head := by
    rw [write_other _ _ hAB, write_same]
  have e1 : mpool_free_all (some p) m [A, B] =
      (some { p with free_list_head := B
                     free_count := ((p.free_count + 1) % SIZE_MOD + 1) % SIZE_MOD },
        write (write m A p.free_list_head) B A) := by
    simp only [mpool_free_all, free_eq _ _ hA0, free_eq _ _ hB0]
  have e2 := alloc_reuse_eq
    { p with free_list_head := B
             free_count := ((p.free_count + 1) % SIZE_MOD + 1) % SIZE_MOD }
    (write (write m A p.free_list_head) B A) malloc1 hB0
  simp only [hmB] at e2
  have e3 := alloc_reuse_eq
    { p with free_list_head := A
             free_count := (((p.free_count + 1) % SIZE_MOD + 1) % SIZE_MOD + SIZE_MOD - 1) %
               SIZE_MOD }
    (write (write m A p.free_list_head) B A) malloc2 hA0
  simp only [hmA] at e3
  rw [e1]
  refine ⟨_, _, _, _, e2, e3, rfl, rfl, rfl, rfl, rfl, rfl, rfl, ?_⟩
  show ((((p.free_count + 1) % SIZE_MOD + 1) % SIZE_MOD + SIZE_MOD - 1) % SIZE_MOD +
    SIZE_MOD - 1) % SIZE_MOD = p.free_count
  unfold SIZE_MOD at hfc ⊢
  omega

/-! ## Statistics -/

theorem ceil_div_zero (n : Nat) : ceil_div 0 n = 0 := by
  unfold ceil_div
  rcases Nat.eq_zero_or_pos n with h | h
  · rw [h]
  · exact Nat.div_eq_of_lt (by omega)

theorem ceil_div_eq {k n f b : Nat} (h : f + k = b * n) (hf : f < n) : ceil_div k n = b := by
  unfold ceil_div
  apply Nat.eq_of_le_of_lt_succ
  · rw [Nat.le_div_iff_mul_le (by omega)]
    omega
  · rw [Nat.div_lt_iff_lt_mul (by omega)]
    have h1 : (b + 1) * n = b * n + n := by ring
    omega

/-- Releasing distinct units in use, one after the other, stays within the reachable states. -/
theorem free_all_reach {p0 : mpool_s} {m0 : Mem} (hf : Fresh p0) :
    ∀ (ptrs : List Nat) {p : mpool_s} {m : Mem} {g : Ghost},
      Reach p0 m0 p m g → ptrs.Nodup → (∀ x ∈ ptrs, x ∈ g.live) →
      ∃ p1 m1 g1, mpool_free_all (some p) m ptrs = (some p1, m1) ∧ Reach p0 m0 p1 m1 g1 ∧
        g1.blocks = g.blocks ∧ g1.live.length + ptrs.length = g.live.length
  | [], p, m, g, hr, _, _ => ⟨p, m, g, rfl, hr, rfl, rfl⟩
  | x :: xs, p, m, g, hr, hnd, hsub => by
    obtain ⟨fl, hi⟩ := reach_inv hf hr
    have hx : x ∈ g.live := hsub x (List.mem_cons_self _ _)
    obtain ⟨hx0, -⟩ := hi.free hf hx
    have hstep := free_eq p m hx0
    have hr1 := Reach.free x hr hx hstep
    have hnd1 := List.nodup_cons.mp hnd
    obtain ⟨p1, m1, g1, heq, hr2, hbl, hlen⟩ := free_all_reach hf xs hr1 hnd1.2
      (fun y hy => (List.mem_erase_of_ne (by rintro rfl; exact hnd1.1 hy)).mpr
        (hsub y (List.mem_cons_of_mem _ hy)))
    refine ⟨p1, m1, g1, ?_, hr2, hbl, ?_⟩
    · simp only [mpool_free_all, hstep]
      exact heq
    · have h1 : g1.live.length + xs.length = (g.live.erase x).length := hlen
      rw [List.length_erase_of_mem hx] at h1
      have h2 : 0 < g.live.length := List.length_pos_of_mem hx
      rw [List.length_cons]
      omega

/-- C8. For a freshly created pool with `n = block_data_size / unit_size`, after `k`
successful `mpool_alloc` calls and no release, `mpool_get_stats` reports
`total_blocks = ceil(k / n)`, `total_units = n * ceil(k / n)` and
`free_units = total_units - k`; releasing `m` distinct of those units then raises
`free_units` by exactly `m` and leaves `total_blocks` and `total_units` unchanged. -/
theorem stats_after_allocs (u bs : Nat) (malloc0 : Nat → Nat) (p0 p : mpool_s)
    (m0 m : Mem) (g : Ghost) (hc : mpool_create u bs malloc0 = some p0)
    (hr : Reach p0 m0 p m g) (hnf : g.frees = 0) (s0 : mpool_stats_t) (ptrs : List Nat)
    (hnd : ptrs.Nodup) (hsub : ∀ x ∈ ptrs, x ∈ g.live) :
    ∃ st st2, mpool_get_stats (some p) (some s0) = some st ∧
      st.unit_size = p0.unit_size ∧
      st.total_blocks = ceil_div g.allocs (units_per_block p0) ∧
      st.total_units = units_per_block p0 * ceil_div g.allocs (units_per_block p0) ∧
      g.allocs ≤ st.total_units ∧
      st.free_units = st.total_units - g.allocs ∧
      mpool_get_stats (mpool_free_all (some p) m ptrs).1 (some s0) = some st2 ∧
      st2.free_units = st.free_units + ptrs.length ∧
      st2.total_blocks = st.total_blocks ∧ st2.total_units = st.total_units := by
  have hf := create_fresh hc
  obtain ⟨fl, hi⟩ := reach_inv hf hr
  obtain ⟨p1, m1, g1, heq, hr1, hbl, hlen⟩ := free_all_reach hf ptrs hr hnd hsub
  obtain ⟨fl1, hi1⟩ := reach_inv hf hr1
  have hk : g.allocs = g.live.length := by
    rw [hi.allocs_eq, hnf, Nat.add_zero]
  have hceil : ceil_div g.allocs (units_per_block p0) = g.blocks.length := by
    rw [hk]
    by_cases hbl0 : g.blocks = []
    · have h0 := hi.length_eq
      rw [hbl0, List.length_nil, Nat.zero_mul] at h0
      rw [hbl0, show g.live.length = 0 by omega]
      exact ceil_div_zero _
    · exact ceil_div_eq hi.length_eq (hi.no_release hnf hbl0)
  have h1 := hi.length_eq
  have h2 := hi1.length_eq
  rw [hbl] at h2
  refine ⟨⟨p.unit_size, p.total_blocks, p.total_units, p.free_count⟩,
    ⟨p1.unit_size, p1.total_blocks, p1.total_units, p1.free_count⟩,
    rfl, hi.unit_size_eq, ?_, ?_, ?_, ?_, ?_, ?_, ?_, ?_⟩
  · show p.total_blocks = _
    rw [hceil, hi.total_blocks_eq]
  · show p.total_units = _
    rw [hceil, hi.total_units_eq, Nat.mul_comm]
  · show g.allocs ≤ p.total_units
    rw [hi.total_units_eq, hk]
    omega
  · show p.free_count = p.total_units - g.allocs
    rw [hi.total_units_eq, hi.free_count_eq, hk]
    omega
  · rw [heq]
    rfl
  · show p1.free_count = p.free_count + ptrs.length
    rw [hi1.free_count_eq, hi.free_count_eq]
    omega
  · show p1.total_blocks = p.total_blocks
    rw [hi1.total_blocks_eq, hi.total_blocks_eq, hbl]
  · show p1.total_units = p.total_units
    rw [hi1.total_units_eq, hi.total_units_eq, hbl]

/-! ## Creation, failure and null arguments -/

/-- C6 (evaluation at the failing input). For the requested unit size `2^64 - 1`
`mpool_create` returns a pool whose `unit_size` is 8: the sum `size + 7` of `ALIGN` wraps. -/
theorem create_unit_size_wraps :
    (mpool_create (2 ^ 64 - 1) 4096 (fun _ => 65536)).map mpool_s.unit_size = some 8 := by
  decide

/-- For every requested size that `ALIGN` can round up without wrapping, the pool's unit size
is the least multiple of 8 that is at least the requested size. -/
theorem create_unit_size_round_up {u bs : Nat} {malloc : Nat → Nat} {pool : mpool_s}
    (hc : mpool_create u bs malloc = some pool) (hu : u + 7 < SIZE_MOD) :
    8 ∣ pool.unit_size ∧ u ≤ pool.unit_size ∧ ∀ k, 8 ∣ k → u ≤ k → pool.unit_size ≤ k := by
  have h0 : u ≠ 0 := by
    intro h
    simp [mpool_create, h] at hc
  obtain ⟨h1, h2, h3⟩ := ALIGN_round_up u hu
  have h8 : ¬ ALIGN u < sizeof_ptr := by
    unfold sizeof_ptr
    obtain ⟨c, hc8⟩ := h1
    omega
  rw [create_unit_size hc, if_neg h8]
  exact ⟨h1, h2, h3⟩

/-- For every requested size above `2^64 - 8` the pool's unit size is 8, below the request. -/
theorem create_unit_size_wrapped {u bs : Nat} {malloc : Nat → Nat} {pool : mpool_s}
    (hc : mpool_create u bs malloc = some pool) (hu : SIZE_MOD < u + 8) (hlt : u < SIZE_MOD) :
    pool.unit_size = 8 := by
  unfold SIZE_MOD at hu hlt
  have hm : (u + 7) % 2 ^ 64 = u + 7 - 2 ^ 64 := by
    rw [Nat.mod_eq_sub_mod (by omega), Nat.mod_eq_of_lt (by omega)]
  have h8 : ALIGN u < sizeof_ptr := by
    rw [ALIGN_eq, hm]
    unfold sizeof_ptr
    omega
  rw [create_unit_size hc, if_pos h8]
  rfl

/-- C7. For every pool whose free list is empty, when the system allocation of the new block
fails, `mpool_alloc` returns `NULL` and leaves the control structure and memory as they were. -/
theorem alloc_failure_atomic (pool : mpool_s) (mem : Mem) (malloc : Nat → Nat)
    (hempty : pool.free_list_head = 0) (hfail : malloc (total_size pool) = 0) :
    mpool_alloc (some pool) mem malloc = some (some pool, mem, 0) :=
  alloc_fail_eq pool mem malloc hempty hfail

theorem alloc_failure_atomic_witness :
    (⟨48, 4088, 0, 0, 0, 0, 0⟩ : mpool_s).free_list_head = 0 ∧
    mpool_alloc (some ⟨48, 4088, 0, 0, 0, 0, 0⟩) (fun _ => 0) (fun _ => 0) =
      some (some ⟨48, 4088, 0, 0, 0, 0, 0⟩, fun _ => 0, 0) :=
  ⟨rfl, alloc_failure_atomic ⟨48, 4088, 0, 0, 0, 0, 0⟩ (fun _ => 0) (fun _ => 0) rfl rfl⟩

/-- C9. `mpool_create` returns `NULL` if and only if the unit size is zero, or the block size
is zero, or the system allocation of the control structure fails. -/
theorem create_null_iff (unit_size block_size : Nat) (malloc : Nat → Nat) :
    mpool_create unit_size block_size malloc = none ↔
      unit_size = 0 ∨ block_size = 0 ∨ malloc sizeof_mpool_t = 0 := by
  unfold mpool_create
  split_ifs with h1 h2
  · simp only [true_iff]
    tauto
  · simp [h2]
  · simp only [reduceCtorEq, false_iff]
    tauto

/-- C10. `mpool_free(pool, NULL)` leaves the control structure and every word of memory
unchanged, and `mpool_free(NULL, ptr)` changes nothing for every `ptr`. -/
theorem free_null_noop (pool : mpool_s) (mem : Mem) (ptr : Nat) :
    mpool_free (some pool) mem 0 = (some pool, mem) ∧
      mpool_free none mem ptr = (none, mem) :=
  ⟨rfl, rfl⟩


/-! ## The result of a growing allocation -/

/-- A growing `mpool_alloc` that returns: the control structure, the memory and the pointer
it returns, in terms of the carving loop. -/
theorem alloc_grow_result {p : mpool_s} {m : Mem} {malloc : Nat → Nat}
    (hbds : p.block_data_size < SIZE_MOD) (hus : sizeof_ptr ≤ p.unit_size)
    (he : p.free_list_head = 0) (hb : malloc (total_size p) ≠ 0)
    {p1 : mpool_s} {m1 : Mem} {r : Nat}
    (hstep : mpool_alloc (some p) m malloc = some (some p1, m1, r)) :
    Geometry p ∧ r ≠ 0 ∧
      r = (carve (malloc (total_size p) + sizeof_mpool_block_t) p.unit_size
        (p.block_data_size / p.unit_size) 0 (write m (malloc (total_size p)) p.block_head)
        p.free_list_head).2 ∧
      m1 = (carve (malloc (total_size p) + sizeof_mpool_block_t) p.unit_size
        (p.block_data_size / p.unit_size) 0 (write m (malloc (total_size p)) p.block_head)
        p.free_list_head).1 ∧
      p1.unit_size = p.unit_size ∧ p1.block_data_size = p.block_data_size ∧
      p1.block_head = malloc (total_size p) ∧
      p1.free_list_head = m1 r ∧
      p1.total_blocks = (p.total_blocks + 1) % SIZE_MOD ∧
      p1.total_units = (p.total_units + p.block_data_size / p.unit_size) % SIZE_MOD ∧
      p1.free_count =
        ((p.free_count + p.block_data_size / p.unit_size) % SIZE_MOD + SIZE_MOD - 1) %
          SIZE_MOD := by
  have hg := alloc_defined_geometry hbds he hb hstep
  have hgrow := grow_eq p m malloc hg hus hb
  rw [alloc_grow_eq p m malloc he hgrow] at hstep
  split_ifs at hstep with h0
  simp only [Option.some.injEq, Prod.mk.injEq] at hstep
  obtain ⟨rfl, rfl, rfl⟩ := hstep
  exact ⟨hg, h0, rfl, rfl, rfl, rfl, rfl, rfl, rfl, rfl, rfl⟩

/-- The address of a block lies in no unit. -/
theorem block_outside_unit {us n bds : Nat} {bl : List Nat}
    (hv : ValidBlocks (sizeof_mpool_block_t + bds) bl) (hn : n * us ≤ bds) {u c : Nat}
    (hu : u ∈ allUnits us n bl) (hc : c ∈ bl) : c < u ∨ u + us ≤ c := by
  obtain ⟨b, hb, hub⟩ := mem_allUnits.mp hu
  have h1 := unit_in_block hn hub
  unfold sizeof_mpool_block_t at h1
  by_cases hbc : b = c
  · subst hbc
    omega
  · have h3 := hv.1.forall (blocks_symmetric _) hb hc hbc
    unfold sizeof_mpool_block_t at h3
    omega

theorem ValidBlocks.bases_nodup {size : Nat} (hs : 0 < size) :
    ∀ {bl : List Nat}, ValidBlocks size bl → bl.Nodup
  | [], _ => List.nodup_nil
  | b :: bl, hv => by
    refine List.nodup_cons.mpr ⟨?_, ValidBlocks.bases_nodup hs hv.tail⟩
    intro hb
    have h := (List.pairwise_cons.mp hv.1).1 b hb
    omega

/-! ## The block ownership list -/

/-- In every reachable state the `next` links of the block headers, followed from
`block_head`, run through the blocks obtained from the system, latest first. -/
theorem reach_block_chain {p0 p : mpool_s} {m0 m : Mem} {g : Ghost} (hf : Fresh p0)
    (hr : Reach p0 m0 p m g) (h0 : p0.block_head = 0) : Chain m p.block_head g.blocks := by
  induction hr with
  | init => exact h0
  | alloc_reuse malloc _ hne hstep ih =>
    rw [alloc_reuse_eq _ _ _ hne] at hstep
    simp only [Option.some.injEq, Prod.mk.injEq] at hstep
    obtain ⟨rfl, rfl, rfl⟩ := hstep
    exact ih
  | @alloc_grow p m g malloc p1 m1 r hprev he hfresh hstep ih =>
    obtain ⟨fl, hi⟩ := reach_inv hf hprev
    have hbds : p.block_data_size < SIZE_MOD := by
      rw [hi.block_data_size_eq]
      exact hf.block_data_size_lt
    have hus : sizeof_ptr ≤ p.unit_size := by
      rw [hi.unit_size_eq]
      exact hf.unit_size_ge
    obtain ⟨hg, -, -, hm1, -, -, hbh, -⟩ := alloc_grow_result hbds hus he hfresh.1 hstep
    have hts := total_size_eq hg
    have hg2 := hg.2
    generalize malloc (total_size p) = b at hfresh hm1 hbh ⊢
    have hfr := hfresh
    rw [hts, hi.block_data_size_eq] at hfr
    unfold sizeof_mpool_block_t at hfr hg2
    unfold sizeof_ptr at hus
    have hfit : p.block_data_size / p.unit_size * p.unit_size ≤ p.block_data_size :=
      Nat.div_mul_le_self _ _
    have hlt : ∀ j, j < p.block_data_size / p.unit_size →
        (j * p.unit_size) % SIZE_MOD = j * p.unit_size ∧
          j * p.unit_size + p.unit_size ≤ p.block_data_size := by
      intro j hj
      have h1 : (j + 1) * p.unit_size ≤ p.block_data_size / p.unit_size * p.unit_size :=
        Nat.mul_le_mul_right _ hj
      have h2 : (j + 1) * p.unit_size = j * p.unit_size + p.unit_size := by ring
      exact ⟨Nat.mod_eq_of_lt (by omega), by omega⟩
    have hother : ∀ a, (a < b ∨ b + (8 + p.block_data_size) ≤ a) → m1 a = m a := by
      intro a ha
      rw [hm1, carve_mem_other _ _ _ _ _ _ a, write_other]
      · omega
      · intro j _ hj
        have h3 := hlt j (by omega)
        rw [h3.1]
        unfold sizeof_mpool_block_t
        omega
    have hsame : m1 b = p.block_head := by
      rw [hm1, carve_mem_other _ _ _ _ _ _ _, write_same]
      intro j _ _
      unfold sizeof_mpool_block_t
      omega
    rw [hbh]
    refine ⟨rfl, hfresh.1, ?_⟩
    rw [hsame]
    refine ih.congr (fun c hc => hother c ?_)
    have h4 := hfr.2.2 c hc
    rw [hi.block_data_size_eq]
    omega
  | alloc_fail malloc _ he hfail hstep ih =>
    rw [alloc_fail_eq _ _ _ he hfail] at hstep
    simp only [Option.some.injEq, Prod.mk.injEq] at hstep
    obtain ⟨rfl, rfl, -⟩ := hstep
    exact ih
  | @free p m g ptr p1 m1 hprev hin hstep ih =>
    obtain ⟨fl, hi⟩ := reach_inv hf hprev
    have hmem : ptr ∈ allUnits p0.unit_size (units_per_block p0) g.blocks :=
      hi.perm.subset (List.mem_append_right _ hin)
    rw [free_eq _ _ (unit_ne_zero hmem)] at hstep
    simp only [Prod.mk.injEq, Option.some.injEq] at hstep
    obtain ⟨rfl, rfl⟩ := hstep
    refine ih.congr (fun c hc => write_other _ _ ?_)
    have h1 := block_outside_unit hi.valid (units_fit p0) hmem hc
    have h2 := hf.unit_size_pos
    omega
  | @store p m g m1 hprev hm ih =>
    obtain ⟨fl, hi⟩ := reach_inv hf hprev
    refine ih.congr (fun c hc => hm c ?_)
    intro u hu
    have hmem : u ∈ allUnits p0.unit_size (units_per_block p0) g.blocks :=
      hi.perm.subset (List.mem_append_right _ hu)
    have h1 := block_outside_unit hi.valid (units_fit p0) hmem hc
    rw [hi.unit_size_eq]
    exact h1

theorem destroy_loop_chain {m : Mem} : ∀ (bl : List Nat) (curr : Nat) (freed : List Nat)
    (fuel : Nat), Chain m curr bl → bl.length ≤ fuel →
    destroy_loop m fuel curr freed = some (freed ++ bl)
  | [], curr, freed, fuel, hc, _ => by
    have h : curr = 0 := hc
    cases fuel <;> simp [destroy_loop, h]
  | b :: bl, curr, freed, 0, _, hle => by simp at hle
  | b :: bl, curr, freed, fuel + 1, ⟨h1, h2, h3⟩, hle => by
    subst h1
    have ih := destroy_loop_chain bl (m curr) (freed ++ [curr]) fuel h3 (by simpa using hle)
    simp only [destroy_loop, if_neg h2, ih, List.append_assoc, List.singleton_append]

theorem create_block_head {u bs : Nat} {malloc : Nat → Nat} {pool : mpool_s}
    (hc : mpool_create u bs malloc = some pool) : pool.block_head = 0 := by
  unfold mpool_create at hc
  split_ifs at hc
  simp only [Option.some.injEq] at hc
  rw [← hc]

/-- C12. In every reachable state the block ownership list, followed from `block_head`
through the `next` links, consists of exactly the `total_blocks` blocks obtained from the
system, each once; `mpool_destroy` terminates (any fuel of at least `total_blocks`
iterations is enough) and passes to `free` each of these blocks once and then the control
structure: `total_blocks + 1` deallocations. -/
theorem teardown_complete (u bs : Nat) (malloc0 : Nat → Nat) (p0 p : mpool_s)
    (m0 m : Mem) (g : Ghost) (hc : mpool_create u bs malloc0 = some p0)
    (hr : Reach p0 m0 p m g) (self fuel : Nat) (hfuel : p.total_blocks ≤ fuel) :
    Chain m p.block_head g.blocks ∧ g.blocks.length = p.total_blocks ∧ g.blocks.Nodup ∧
      mpool_destroy (some p) self m fuel = some (g.blocks ++ [self]) ∧
      (g.blocks ++ [self]).length = p.total_blocks + 1 := by
  have hf := create_fresh hc
  obtain ⟨fl, hi⟩ := reach_inv hf hr
  have hch := reach_block_chain hf hr (create_block_head hc)
  have hlen : g.blocks.length = p.total_blocks := hi.total_blocks_eq.symm
  refine ⟨hch, hlen, ?_, ?_, ?_⟩
  · refine ValidBlocks.bases_nodup ?_ hi.valid
    unfold sizeof_mpool_block_t
    omega
  · have h := destroy_loop_chain g.blocks p.block_head [] fuel hch (by omega)
    simp only [mpool_destroy, h, List.nil_append]
  · rw [List.length_append, hlen]
    rfl

/-! ## Where the units lie -/

/-- Every unit in use lies in the payload of exactly one block, at a multiple of the unit
size from the start of the payload. -/
theorem live_in_payload {p0 p : mpool_s} {m0 m : Mem} {g : Ghost} (hf : Fresh p0)
    (hr : Reach p0 m0 p m g) {r : Nat} (hin : r ∈ g.live) :
    ∃! b, b ∈ g.blocks ∧ b + sizeof_mpool_block_t ≤ r ∧
      r + p.unit_size ≤ b + sizeof_mpool_block_t + p.block_data_size ∧
      p.unit_size ∣ r - (b + sizeof_mpool_block_t) := by
  obtain ⟨fl, hi⟩ := reach_inv hf hr
  have hmem : r ∈ allUnits p0.unit_size (units_per_block p0) g.blocks :=
    hi.perm.subset (List.mem_append_right _ hin)
  obtain ⟨b, hb, hub⟩ := mem_allUnits.mp hmem
  have h1 := unit_in_block (units_fit p0) hub
  obtain ⟨i, -, hri⟩ := mem_unitsOf.mp hub
  rw [hi.unit_size_eq, hi.block_data_size_eq]
  refine ⟨b, ⟨hb, h1.1, h1.2, ?_⟩, ?_⟩
  · rw [hri, Nat.add_sub_cancel_left]
    exact Dvd.intro_left _ rfl
  · rintro c ⟨hc, hc1, hc2, -⟩
    by_contra hne
    have h3 := hi.valid.1.forall (blocks_symmetric _) hc hb hne
    have hpos := hf.unit_size_pos
    omega

/-- C11 (amended). Every address returned by `mpool_alloc` in a reachable state, and every
unit in use, lies inside the payload region of exactly one block of the pool, the whole
unit `[p, p + unit_size)` fits inside that payload region, and its offset from the start of
the payload (`block->data`, 8 bytes after the start of the block) is a multiple of
`unit_size`. -/
theorem alloc_address_in_payload (u bs : Nat) (malloc0 : Nat → Nat) (p0 p : mpool_s)
    (m0 m : Mem) (g : Ghost) (hc : mpool_create u bs malloc0 = some p0)
    (hr : Reach p0 m0 p m g) :
    (∀ r ∈ g.live, ∃! b, b ∈ g.blocks ∧ b + sizeof_mpool_block_t ≤ r ∧
        r + p.unit_size ≤ b + sizeof_mpool_block_t + p.block_data_size ∧
        p.unit_size ∣ r - (b + sizeof_mpool_block_t)) ∧
    ∀ (malloc : Nat → Nat) (p1 : mpool_s) (m1 : Mem) (r : Nat),
      (malloc (total_size p) = 0 ∨
        BlockFresh g.blocks (total_size p) (malloc (total_size p))) →
      mpool_alloc (some p) m malloc = some (some p1, m1, r) → r ≠ 0 →
      ∃! b, (b ∈ g.blocks ∨ (p.free_list_head = 0 ∧ b = malloc (total_size p))) ∧
        b + sizeof_mpool_block_t ≤ r ∧
        r + p1.unit_size ≤ b + sizeof_mpool_block_t + p1.block_data_size ∧
        p1.unit_size ∣ r - (b + sizeof_mpool_block_t) := by
  have hf := create_fresh hc
  refine ⟨fun r hin => live_in_payload hf hr hin, ?_⟩
  intro malloc p1 m1 r hmal hstep hr0
  by_cases he : p.free_list_head = 0
  · rcases hmal with hfail | hfresh
    · rw [alloc_fail_eq _ _ _ he hfail] at hstep
      simp only [Option.some.injEq, Prod.mk.injEq] at hstep
      exact absurd hstep.2.2.symm hr0
    · obtain ⟨b, hb, huniq⟩ :=
        live_in_payload hf (Reach.alloc_grow malloc hr he hfresh hstep)
          (List.mem_cons_self r g.live)
      refine ⟨b, ⟨?_, hb.2⟩, ?_⟩
      · rcases List.mem_cons.mp hb.1 with h | h
        · exact Or.inr ⟨he, h⟩
        · exact Or.inl h
      · rintro c ⟨hc1, hc2⟩
        refine huniq c ⟨?_, hc2⟩
        rcases hc1 with h | ⟨-, h⟩
        · exact List.mem_cons_of_mem _ h
        · rw [h]
          exact List.mem_cons_self _ _
  · obtain ⟨b, hb, huniq⟩ :=
      live_in_payload hf (Reach.alloc_reuse malloc hr he hstep) (List.mem_cons_self r g.live)
    refine ⟨b, ⟨Or.inl hb.1, hb.2⟩, ?_⟩
    rintro c ⟨hc1, hc2⟩
    refine huniq c ⟨?_, hc2⟩
    rcases hc1 with h | ⟨h, -⟩
    · exact h
    · exact absurd h he

/-! ## The free list in reachable states -/

/-- C15. In every reachable state the chain of units reached from `free_list_head` through
the link words is finite, ends at `NULL`, and its length is `free_count`; an `mpool_alloc`
that returns a unit lowers the free count by exactly one, after the `num_units` a growth
has added, without wrapping below zero. -/
theorem free_list_length (u bs : Nat) (malloc0 : Nat → Nat) (p0 p : mpool_s)
    (m0 m : Mem) (g : Ghost) (hc : mpool_create u bs malloc0 = some p0)
    (hr : Reach p0 m0 p m g) :
    (∃ fl, Chain m p.free_list_head fl ∧ fl.length = p.free_count) ∧
    ∀ (malloc : Nat → Nat) (p1 : mpool_s) (m1 : Mem) (r : Nat),
      (malloc (total_size p) = 0 ∨
        BlockFresh g.blocks (total_size p) (malloc (total_size p))) →
      mpool_alloc (some p) m malloc = some (some p1, m1, r) → r ≠ 0 →
      p1.free_count + 1 =
        p.free_count + (if p.free_list_head = 0 then units_per_block p else 0) := by
  have hf := create_fresh hc
  obtain ⟨fl, hi⟩ := reach_inv hf hr
  refine ⟨⟨fl, hi.chain, hi.free_count_eq.symm⟩, ?_⟩
  intro malloc p1 m1 r hmal hstep hr0
  by_cases he : p.free_list_head = 0
  · rw [if_pos he]
    rcases hmal with hfail | hfresh
    · rw [alloc_fail_eq _ _ _ he hfail] at hstep
      simp only [Option.some.injEq, Prod.mk.injEq] at hstep
      exact absurd hstep.2.2.symm hr0
    · have hg := hi.geometry_of_alloc hf he hfresh.1 hstep
      obtain ⟨p2, m2, r2, xs, heq, hxs, hi1, -, -⟩ := hi.alloc_grow hf hg he malloc hfresh
      rw [heq] at hstep
      simp only [Option.some.injEq, Prod.mk.injEq] at hstep
      obtain ⟨rfl, rfl, rfl⟩ := hstep
      have hfl : fl = [] := by
        have hch := hi.chain
        rw [he] at hch
        exact hch.eq_nil
      have hlen : (r2 :: xs).length = units_per_block p0 := by
        rw [hxs]
        simp [unitsOf]
      have hn : units_per_block p = units_per_block p0 := by
        unfold units_per_block
        rw [hi.block_data_size_eq, hi.unit_size_eq]
      rw [hi1.free_count_eq, hi.free_count_eq, hfl, hn, ← hlen]
      simp
  · rw [if_neg he, Nat.add_zero]
    obtain ⟨xs, hxs, hi1⟩ := hi.alloc_reuse he
    rw [alloc_reuse_eq _ _ _ he] at hstep
    simp only [Option.some.injEq, Prod.mk.injEq] at hstep
    obtain ⟨rfl, rfl, rfl⟩ := hstep
    rw [hi1.free_count_eq, hi.free_count_eq, hxs]
    simp

/-- C16. In every reachable state a carved unit is reached from `free_list_head` if and
only if it is not in use; no unit occurs twice in the free list, no unit in use is reached
from it, and every unit of the free list is a carved unit. -/
theorem free_list_membership (u bs : Nat) (malloc0 : Nat → Nat) (p0 p : mpool_s)
    (m0 m : Mem) (g : Ghost) (hc : mpool_create u bs malloc0 = some p0)
    (hr : Reach p0 m0 p m g) :
    ∃ fl, Chain m p.free_list_head fl ∧ fl.Nodup ∧
      (∀ x ∈ allUnits p.unit_size (units_per_block p) g.blocks, x ∈ fl ↔ x ∉ g.live) ∧
      (∀ x ∈ g.live, x ∉ fl) ∧
      (∀ x ∈ fl, x ∈ allUnits p.unit_size (units_per_block p) g.blocks) := by
  have hf := create_fresh hc
  obtain ⟨fl, hi⟩ := reach_inv hf hr
  have hnd := List.nodup_append.mp (hi.nodup hf)
  have hn : units_per_block p = units_per_block p0 := by
    unfold units_per_block
    rw [hi.block_data_size_eq, hi.unit_size_eq]
  rw [hn, hi.unit_size_eq]
  refine ⟨fl, hi.chain, hnd.1, ?_, ?_, ?_⟩
  · intro x hx
    constructor
    · intro hfl hlive
      exact hnd.2.2 hfl hlive
    · intro hlive
      rcases List.mem_append.mp (hi.perm.symm.subset hx) with h | h
      · exact h
      · exact absurd h hlive
  · intro x hlive hfl
    exact hnd.2.2 hfl hlive
  · intro x hx
    exact hi.perm.subset (List.mem_append_left _ hx)

/-- C18. In every reachable state whose free list is non-empty, `mpool_alloc` followed by
`mpool_free` of the pointer it returned gives back the same control structure and the same
memory: the call returns the head, stores nothing, and the link written by the release is
the link the unit held. -/
theorem alloc_free_round_trip (u bs : Nat) (malloc0 : Nat → Nat) (p0 p : mpool_s)
    (m0 m : Mem) (g : Ghost) (hc : mpool_create u bs malloc0 = some p0)
    (hr : Reach p0 m0 p m g) (hne : p.free_list_head ≠ 0) (malloc : Nat → Nat) :
    ∃ p1 m1 r, mpool_alloc (some p) m malloc = some (some p1, m1, r) ∧
      r = p.free_list_head ∧ m1 = m ∧ p1.free_list_head = m r ∧
      p1.total_blocks = p.total_blocks ∧ p1.total_units = p.total_units ∧
      p1.free_count + 1 = p.free_count ∧
      mpool_free (some p1) m1 r = (some p, m) := by
  have hf := create_fresh hc
  obtain ⟨fl, hi⟩ := reach_inv hf hr
  obtain ⟨xs, hxs, hi1⟩ := hi.alloc_reuse hne
  have hfc : p.free_count = xs.length + 1 := by
    rw [hi.free_count_eq, hxs]
    rfl
  have hfc1 : (p.free_count + SIZE_MOD - 1) % SIZE_MOD = xs.length := hi1.free_count_eq
  have hlt : p.free_count < SIZE_MOD := by
    have h1 := hi.length_eq
    have h2 := counter_bounds hi.valid
    have h3 : 0 < fl.length := by
      rw [hxs]
      exact Nat.succ_pos _
    rw [hi.free_count_eq]
    rcases Nat.eq_zero_or_pos g.blocks.length with h | h
    · rw [h, Nat.zero_mul] at h1
      omega
    · omega
  refine ⟨_, _, _, alloc_reuse_eq p m malloc hne, rfl, rfl, rfl, rfl, rfl, ?_, ?_⟩
  · show (p.free_count + SIZE_MOD - 1) % SIZE_MOD + 1 = p.free_count
    rw [hfc1, hfc]
  · rw [free_eq _ _ hne]
    have hm : write m p.free_list_head (m p.free_list_head) = m := by
      funext x
      unfold write
      split_ifs with h
      · rw [h]
      · rfl
    have hc2 : ((p.free_count + SIZE_MOD - 1) % SIZE_MOD + 1) % SIZE_MOD = p.free_count := by
      rw [hfc1, ← hfc]
      exact Nat.mod_eq_of_lt hlt
    simp only [hm, hc2]

/-! ## The block counters, whatever is released -/

theorem AnyInv.start {p0 : mpool_s} (hf : Fresh p0) : AnyInv p0 p0 [] :=
  { unit_size_eq := rfl
    block_data_size_eq := rfl
    valid := ⟨List.Pairwise.nil, fun _ h => absurd h (List.not_mem_nil _)⟩
    total_blocks_eq := hf.total_blocks_eq
    total_units_eq := by simpa using hf.total_units_eq }

theorem AnyInv.step_reuse {p0 p : mpool_s} {bl : List Nat} (hi : AnyInv p0 p bl)
    {m : Mem} {malloc : Nat → Nat} (hne : p.free_list_head ≠ 0) {p1 : mpool_s} {m1 : Mem}
    {r : Nat} (hstep : mpool_alloc (some p) m malloc = some (some p1, m1, r)) :
    AnyInv p0 p1 bl ∧ p1.total_blocks = p.total_blocks ∧ p1.total_units = p.total_units := by
  rw [alloc_reuse_eq _ _ _ hne] at hstep
  simp only [Option.some.injEq, Prod.mk.injEq] at hstep
  obtain ⟨rfl, -, -⟩ := hstep
  exact ⟨⟨hi.unit_size_eq, hi.block_data_size_eq, hi.valid, hi.total_blocks_eq,
    hi.total_units_eq⟩, rfl, rfl⟩

theorem AnyInv.step_grow {p0 p : mpool_s} {bl : List Nat} (hf : Fresh p0)
    (hi : AnyInv p0 p bl) {m : Mem} {malloc : Nat → Nat} (he : p.free_list_head = 0)
    (hfresh : BlockFresh bl (total_size p) (malloc (total_size p)))
    {p1 : mpool_s} {m1 : Mem} {r : Nat}
    (hstep : mpool_alloc (some p) m malloc = some (some p1, m1, r)) :
    AnyInv p0 p1 (malloc (total_size p) :: bl) ∧ p1.total_blocks = p.total_blocks + 1 ∧
      p1.total_units = p.total_units + units_per_block p := by
  have hbds : p.block_data_size < SIZE_MOD := by
    rw [hi.block_data_size_eq]
    exact hf.block_data_size_lt
  have hus : sizeof_ptr ≤ p.unit_size := by
    rw [hi.unit_size_eq]
    exact hf.unit_size_ge
  obtain ⟨hg, -, -, -, h1, h2, -, -, h3, h4, -⟩ :=
    alloc_grow_result hbds hus he hfresh.1 hstep
  have hn : p.block_data_size / p.unit_size = units_per_block p0 := by
    rw [hi.block_data_size_eq, hi.unit_size_eq]
    rfl
  have hn1 : units_per_block p = units_per_block p0 := hn
  generalize malloc (total_size p) = b at hfresh ⊢
  have hfr := hfresh
  rw [total_size_eq hg, hi.block_data_size_eq] at hfr
  have hv := hi.valid.cons hfr
  have hb := @counter_bounds p0 _ hv
  have hB : bl.length * units_per_block p0 + units_per_block p0 =
      (bl.length + 1) * units_per_block p0 := by ring
  simp only [List.length_cons] at hb
  rw [hn, hi.total_units_eq, hB, Nat.mod_eq_of_lt (by omega)] at h4
  rw [hi.total_blocks_eq, Nat.mod_eq_of_lt (by omega)] at h3
  refine ⟨⟨h1.trans hi.unit_size_eq, h2.trans hi.block_data_size_eq, hv, ?_, ?_⟩, ?_, ?_⟩
  · rw [h3, List.length_cons]
  · rw [h4, List.length_cons]
  · rw [h3, hi.total_blocks_eq]
  · rw [h4, hn1, hi.total_units_eq, hB]

/-- The sizes and the block counters of every state reached by any calls. -/
theorem reach_any_inv {p0 p : mpool_s} {m0 m : Mem} {bl : List Nat} (hf : Fresh p0)
    (hr : ReachAny p0 m0 p m bl) : AnyInv p0 p bl := by
  induction hr with
  | init => exact AnyInv.start hf
  | alloc_reuse malloc _ hne hstep ih => exact (ih.step_reuse hne hstep).1
  | alloc_grow malloc _ he hfresh hstep ih => exact (ih.step_grow hf he hfresh hstep).1
  | alloc_fail malloc _ he hfail hstep ih =>
    rw [alloc_fail_eq _ _ _ he hfail] at hstep
    simp only [Option.some.injEq, Prod.mk.injEq] at hstep
    obtain ⟨rfl, -, -⟩ := hstep
    exact ih
  | @free p m bl ptr p1 m1 _ hstep ih =>
    by_cases hp : ptr = 0
    · simp only [mpool_free, hp, if_true, Prod.mk.injEq, Option.some.injEq] at hstep
      obtain ⟨rfl, -⟩ := hstep
      exact ih
    · rw [free_eq _ _ hp] at hstep
      simp only [Prod.mk.injEq, Option.some.injEq] at hstep
      obtain ⟨rfl, -⟩ := hstep
      exact ⟨ih.unit_size_eq, ih.block_data_size_eq, ih.valid, ih.total_blocks_eq,
        ih.total_units_eq⟩
  | store m1 _ ih => exact ih

/-- Executions that release only units in use are executions. -/
theorem Reach.toAny {p0 p : mpool_s} {m0 m : Mem} {g : Ghost} (hr : Reach p0 m0 p m g) :
    ReachAny p0 m0 p m g.blocks := by
  induction hr with
  | init => exact ReachAny.init
  | alloc_reuse malloc _ hne hstep ih => exact ReachAny.alloc_reuse malloc ih hne hstep
  | alloc_grow malloc _ he hfresh hstep ih => exact ReachAny.alloc_grow malloc ih he hfresh hstep
  | alloc_fail malloc _ he hfail hstep ih => exact ReachAny.alloc_fail malloc ih he hfail hstep
  | free ptr _ _ hstep ih => exact ReachAny.free ptr ih hstep
  | store m1 _ _ ih => exact ReachAny.store m1 ih

/-- C19. In every state reached from a fresh pool by any sequence of `mpool_alloc` and
`mpool_free` calls, whatever pointers are released,
`total_units = total_blocks * (block_data_size / unit_size)`; `mpool_free` changes neither
counter and `mpool_alloc` lowers neither. -/
theorem unit_count_invariant (u bs : Nat) (malloc0 : Nat → Nat) (p0 p : mpool_s)
    (m0 m : Mem) (bl : List Nat) (hc : mpool_create u bs malloc0 = some p0)
    (hr : ReachAny p0 m0 p m bl) :
    p.total_units = p.total_blocks * (p.block_data_size / p.unit_size) ∧
    (∀ ptr, ∃ p1 m1, mpool_free (some p) m ptr = (some p1, m1) ∧
      p1.total_blocks = p.total_blocks ∧ p1.total_units = p.total_units) ∧
    ∀ (malloc : Nat → Nat) (p1 : mpool_s) (m1 : Mem) (r : Nat),
      (malloc (total_size p) = 0 ∨ BlockFresh bl (total_size p) (malloc (total_size p))) →
      mpool_alloc (some p) m malloc = some (some p1, m1, r) →
      p.total_blocks ≤ p1.total_blocks ∧ p.total_units ≤ p1.total_units := by
  have hf := create_fresh hc
  have hi := reach_any_inv hf hr
  refine ⟨?_, ?_, ?_⟩
  · rw [hi.total_units_eq, hi.total_blocks_eq, hi.block_data_size_eq, hi.unit_size_eq]
    rfl
  · intro ptr
    by_cases hp : ptr = 0
    · exact ⟨p, m, by simp [mpool_free, hp], rfl, rfl⟩
    · exact ⟨_, _, free_eq p m hp, rfl, rfl⟩
  · intro malloc p1 m1 r hmal hstep
    by_cases he : p.free_list_head = 0
    · rcases hmal with hfail | hfresh
      · rw [alloc_fail_eq _ _ _ he hfail] at hstep
        simp only [Option.some.injEq, Prod.mk.injEq] at hstep
        obtain ⟨rfl, -, -⟩ := hstep
        exact ⟨le_rfl, le_rfl⟩
      · obtain ⟨-, h1, h2⟩ := hi.step_grow hf he hfresh hstep
        omega
    · obtain ⟨-, h1, h2⟩ := hi.step_reuse he hstep
      omega

/-! ## Allocation out of a fresh block -/

/-- The units of a block in the order opposite to the carving order: the `j`-th (from 0) is
slot `n - 1 - j`. -/
theorem unitsOf_reverse (us n b : Nat) :
    (unitsOf us n b).reverse =
      (List.range n).map (fun j => b + sizeof_mpool_block_t + (n - 1 - j) * us) := by
  unfold unitsOf
  rw [← List.map_reverse, List.range_eq_range', List.reverse_range', List.map_map]
  simp only [← List.range_eq_range', Nat.zero_add]
  rfl

theorem unitsOf_reverse_descending {us n : Nat} (b : Nat) (hus : 0 < us) :
    (unitsOf us n b).reverse.Pairwise (fun x y => y < x) := by
  rw [List.pairwise_reverse]
  unfold unitsOf
  refine List.Pairwise.map _ ?_ (List.pairwise_lt_range n)
  intro i j hij
  have h : i * us < j * us := Nat.mul_lt_mul_of_pos_right hij hus
  omega

/-- Allocations that find the free list non-empty pop it unit by unit and store nothing. -/
theorem alloc_all_pops {m : Mem} : ∀ (fl : List Nat) (p : mpool_s)
    (mallocs : List (Nat → Nat)), Chain m p.free_list_head fl → p.free_count = fl.length →
    fl.length < SIZE_MOD → mallocs.length = fl.length →
    mpool_alloc_all (some p) m mallocs =
      some (some { p with free_list_head := 0, free_count := 0 }, m, fl)
  | [], p, mallocs, hc, hfc, _, hlen => by
    have h0 : p.free_list_head = 0 := hc
    have hm : mallocs = [] := List.length_eq_zero.mp hlen
    subst hm
    cases p
    simp only [List.length_nil] at hfc
    simp only at h0
    simp [mpool_alloc_all, h0, hfc]
  | x :: xs, p, [], _, _, _, hlen => by simp at hlen
  | x :: xs, p, malloc :: rest, ⟨h1, h2, h3⟩, hfc, hlt, hlen => by
    subst h1
    have hne : p.free_list_head ≠ 0 := h2
    simp only [List.length_cons] at hfc hlt hlen
    have hfc1 : (p.free_count + SIZE_MOD - 1) % SIZE_MOD = xs.length := by
      rw [hfc, show xs.length + 1 + SIZE_MOD - 1 = xs.length + SIZE_MOD by omega,
        Nat.add_mod_right, Nat.mod_eq_of_lt (by omega)]
    have ih := alloc_all_pops xs
      { p with
        free_list_head := m p.free_list_head
        free_count := (p.free_count + SIZE_MOD - 1) % SIZE_MOD } rest
      h3 hfc1 (by omega) (by omega)
    simp only [mpool_alloc_all, alloc_reuse_eq _ _ malloc hne, ih]

/-- The allocations out of a fresh block, for a pool whose blocks hold a unit and have a
representable byte count. -/
theorem alloc_all_fresh_block {p0 p : mpool_s} {m0 m : Mem} {g : Ghost} (hf : Fresh p0)
    (hg : Geometry p0) (hr : Reach p0 m0 p m g) (he : p.free_list_head = 0)
    (malloc : Nat → Nat) (rest : List (Nat → Nat))
    (hfresh : BlockFresh g.blocks (total_size p) (malloc (total_size p)))
    (hlen : rest.length + 1 = units_per_block p) :
    ∃ p1 m1, mpool_alloc_all (some p) m (malloc :: rest) =
        some (some p1, m1,
          (unitsOf p.unit_size (units_per_block p) (malloc (total_size p))).reverse) ∧
      p1.free_list_head = 0 ∧ p1.free_count = 0 ∧
      p1.total_blocks = p.total_blocks + 1 ∧
      p1.total_units = p.total_units + units_per_block p := by
  obtain ⟨fl, hi⟩ := reach_inv hf hr
  obtain ⟨p2, m2, r, xs, heq, hxs, hi1, htb, htu⟩ := hi.alloc_grow hf hg he malloc hfresh
  have hn : units_per_block p = units_per_block p0 := by
    unfold units_per_block
    rw [hi.block_data_size_eq, hi.unit_size_eq]
  have hl : (r :: xs).length = units_per_block p0 := by
    rw [hxs]
    simp [unitsOf]
  simp only [List.length_cons] at hl
  have hlt : xs.length < SIZE_MOD := by
    have h1 : xs.length + (r :: g.live).length =
        (malloc (total_size p) :: g.blocks).length * units_per_block p0 := hi1.length_eq
    have h2 : (malloc (total_size p) :: g.blocks).length * units_per_block p0 +
        (malloc (total_size p) :: g.blocks).length * 8 ≤ SIZE_MOD := counter_bounds hi1.valid
    simp only [List.length_cons] at h1 h2
    omega
  have hpops := alloc_all_pops xs p2 rest hi1.chain hi1.free_count_eq hlt (by omega)
  refine ⟨{ p2 with free_list_head := 0, free_count := 0 }, m2, ?_, rfl, rfl, htb, htu⟩
  simp only [mpool_alloc_all, heq, hpops]
  rw [hn, hi.unit_size_eq, ← hxs]

/-- C20. In a reachable state with an empty free list and `n = block_data_size / unit_size`,
`n` consecutive `mpool_alloc` calls of which the first obtains a fresh block: if they all
return, they acquire exactly one block and return the slots
`data_start + (n - 1 - j) * unit_size` for `j = 0, ..., n - 1` in this order, which is each
slot of the block once and in strictly descending address order, and they leave the free
list empty; and they do all return whenever a block holds a unit and has a representable
byte count. -/
theorem fresh_block_alloc_order (u bs : Nat) (malloc0 : Nat → Nat) (p0 p : mpool_s)
    (m0 m : Mem) (g : Ghost) (hc : mpool_create u bs malloc0 = some p0)
    (hr : Reach p0 m0 p m g) (he : p.free_list_head = 0)
    (malloc : Nat → Nat) (rest : List (Nat → Nat))
    (hfresh : BlockFresh g.blocks (total_size p) (malloc (total_size p)))
    (hlen : rest.length + 1 = units_per_block p) :
    (∀ p1 m1 rs, mpool_alloc_all (some p) m (malloc :: rest) = some (p1, m1, rs) →
      rs = (List.range (units_per_block p)).map (fun j =>
          malloc (total_size p) + sizeof_mpool_block_t +
            (units_per_block p - 1 - j) * p.unit_size) ∧
        rs.Perm (unitsOf p.unit_size (units_per_block p) (malloc (total_size p))) ∧
        rs.Nodup ∧ rs.Pairwise (fun x y => y < x) ∧
        ∃ q, p1 = some q ∧ q.free_list_head = 0 ∧ q.free_count = 0 ∧
          q.total_blocks = p.total_blocks + 1 ∧
          q.total_units = p.total_units + units_per_block p) ∧
    (Geometry p0 → ∃ p1 m1 rs,
      mpool_alloc_all (some p) m (malloc :: rest) = some (p1, m1, rs)) := by
  have hf := create_fresh hc
  obtain ⟨fl, hi⟩ := reach_inv hf hr
  constructor
  · intro p1 m1 rs hall
    have hg : Geometry p0 := by
      cases hfirst : mpool_alloc (some p) m malloc with
      | none => simp [mpool_alloc_all, hfirst] at hall
      | some x => exact hi.geometry_of_alloc hf he hfresh.1 hfirst
    obtain ⟨q, mq, heq, h1, h2, h3, h4⟩ :=
      alloc_all_fresh_block hf hg hr he malloc rest hfresh hlen
    rw [heq] at hall
    simp only [Option.some.injEq, Prod.mk.injEq] at hall
    obtain ⟨rfl, -, rfl⟩ := hall
    have hpos : 0 < p.unit_size := by
      rw [hi.unit_size_eq]
      exact hf.unit_size_pos
    refine ⟨unitsOf_reverse _ _ _, List.reverse_perm _, ?_,
      unitsOf_reverse_descending _ hpos, q, rfl, h1, h2, h3, h4⟩
    exact List.nodup_reverse.mpr (nodup_unitsOf _ hpos)
  · intro hg
    obtain ⟨q, mq, heq, -⟩ := alloc_all_fresh_block hf hg hr he malloc rest hfresh hlen
    exact ⟨_, _, _, heq⟩

/-! ## Pools whose sizes wrapped -/

/-- C17 (evaluation at the failing input). With unit size `2^62` and block size 4096 the
product `aligned_unit * 4` wraps to 0: `block_data_size / unit_size` is 0, a block holds no
unit, and the first `mpool_alloc` whose growth succeeds pops through a `NULL` head. -/
theorem alloc_undefined_no_unit :
    ((mpool_create (2 ^ 62) 4096 ex_malloc).map
      (fun p => (p.block_data_size / p.unit_size,
        (mpool_alloc (some p) ex_m0 ex_malloc).isNone))) = some (0, true) := by
  decide

/-- With unit size `2^64 - 8` and block size 1 the sum `sizeof(mpool_block_t) + aligned_unit`
wraps to 0: `mpool_grow` requests 1 byte and stores the block header past its end. -/
theorem alloc_undefined_short_block :
    ((mpool_create (2 ^ 64 - 8) 1 ex_malloc).map
      (fun p => (total_size p, (mpool_alloc (some p) ex_m0 ex_malloc).isNone))) =
      some (1, true) := by
  decide

/-- C13 (evaluation at the failing input). For unit size `2^62` and block size 4096 the
block size is replaced, and `aligned_unit * 4` wraps to 0: the pool's `block_data_size` is
0, not `4 * 2^62`, and a block holds no unit. -/
theorem create_block_data_size_wraps :
    (mpool_create (2 ^ 62) 4096 ex_malloc).map
      (fun p => (p.unit_size, p.block_data_size, p.block_data_size / p.unit_size)) =
      some (2 ^ 62, 0, 0) := by
  decide

/-- The block data size `mpool_create` stores when its arithmetic does not wrap: the
requested block size less the header when that holds a unit, four units otherwise. -/
theorem create_block_data_size {u bs : Nat} {malloc : Nat → Nat} {pool : mpool_s}
    (hc : mpool_create u bs malloc = some pool) (hbs : bs < SIZE_MOD) :
    (sizeof_mpool_block_t + pool.unit_size ≤ bs →
      pool.block_data_size = bs - sizeof_mpool_block_t) ∧
    (bs < sizeof_mpool_block_t + pool.unit_size → pool.unit_size < 2 ^ 62 →
      pool.block_data_size = 4 * pool.unit_size) := by
  have hus := create_unit_size hc
  obtain ⟨⟨c, hc8⟩, -⟩ := create_unit_size_dvd hc
  unfold ALIGN_SIZE sizeof_ptr at hc8
  unfold mpool_create at hc
  split_ifs at hc
  simp only [Option.some.injEq] at hc
  rw [← hus] at hc
  have hbd : pool.block_data_size =
      ((if bs < (sizeof_mpool_block_t + pool.unit_size) % SIZE_MOD then
        (sizeof_mpool_block_t + (pool.unit_size * 4) % SIZE_MOD) % SIZE_MOD
      else bs) + SIZE_MOD - sizeof_mpool_block_t) % SIZE_MOD := by
    rw [← hc]
  rw [hbd]
  unfold sizeof_mpool_block_t SIZE_MOD at *
  constructor
  · intro hA
    rw [Nat.mod_eq_of_lt (show 8 + pool.unit_size < 2 ^ 64 by omega), if_neg (by omega),
      show bs + 2 ^ 64 - 8 = bs - 8 + 2 ^ 64 by omega, Nat.add_mod_right,
      Nat.mod_eq_of_lt (by omega)]
  · intro hA hB
    rw [Nat.mod_eq_of_lt (show 8 + pool.unit_size < 2 ^ 64 by omega), if_pos (by omega),
      Nat.mod_eq_of_lt (show pool.unit_size * 4 < 2 ^ 64 by omega),
      Nat.mod_eq_of_lt (show 8 + pool.unit_size * 4 < 2 ^ 64 by omega),
      show 8 + pool.unit_size * 4 + 2 ^ 64 - 8 = pool.unit_size * 4 + 2 ^ 64 by omega,
      Nat.add_mod_right, Nat.mod_eq_of_lt (by omega)]
    omega

/-- When the arithmetic of `mpool_create` does not wrap, every block holds a unit. -/
theorem create_units_per_block_pos {u bs : Nat} {malloc : Nat → Nat} {pool : mpool_s}
    (hc : mpool_create u bs malloc = some pool) (hbs : bs < SIZE_MOD)
    (h : pool.unit_size + 8 ≤ bs ∨ pool.unit_size < 2 ^ 62) : 0 < units_per_block pool :=
  units_per_block_pos (create_fresh hc) (create_geometry hc hbs h)

/-! ## Instances -/

theorem ex_create : mpool_create 8 24 ex_malloc = some ex_p0 := by decide

theorem ex_geometry : Geometry ex_p0 := by decide

theorem ex_alloc1 :
    mpool_alloc (some ex_p0) ex_m0 ex_malloc = some (some ex_p1, ex_m1, 4112) := rfl

theorem ex_alloc2 :
    mpool_alloc (some ex_p1) ex_m1 ex_malloc = some (some ex_p2, ex_m1, 4104) := rfl

theorem ex_reach1 : Reach ex_p0 ex_m0 ex_p1 ex_m1 ex_g1 :=
  Reach.alloc_grow ex_malloc Reach.init rfl (by decide) ex_alloc1

theorem ex_reach2 : Reach ex_p0 ex_m0 ex_p2 ex_m1 ex_g2 :=
  Reach.alloc_reuse ex_malloc ex_reach1 (by decide) ex_alloc2

set_option maxRecDepth 1000000 in
/-- The demo: unit size 48, block size 4096; after 100 allocations the pool holds 2 blocks
and 170 units of which 70 are free, and releasing the first 50 objects raises the free
count by 50. -/
theorem demo_main_stats :
    demo_main ex_m0 = some (⟨48, 2, 170, 70⟩, ⟨48, 2, 170, 120⟩) := by
  decide!

theorem free_count_conservation_witness :
    mpool_create 8 24 ex_malloc = some ex_p0 ∧
      Reach ex_p0 ex_m0 ex_p1 ex_m1 ex_g1 ∧
      ex_p1.free_count + ex_g1.live.length = ex_p1.total_units :=
  ⟨ex_create, ex_reach1,
    free_count_conservation 8 24 ex_malloc ex_p0 ex_p1 ex_m0 ex_m1 ex_g1 ex_create ex_reach1⟩

theorem lifo_reuse_witness :
    (4104 ∈ ex_g2.live ∧ 4112 ∈ ex_g2.live ∧ 4104 ≠ 4112) ∧
    ∃ p3 m3 p4 m4,
      mpool_alloc (mpool_free_all (some ex_p2) ex_m1 [4104, 4112]).1
        (mpool_free_all (some ex_p2) ex_m1 [4104, 4112]).2 ex_malloc2 =
          some (some p3, m3, 4112) ∧
      mpool_alloc (some p3) m3 ex_malloc2 = some (some p4, m4, 4104) ∧
      p3.total_blocks = ex_p2.total_blocks ∧ p3.total_units = ex_p2.total_units ∧
      p3.block_head = ex_p2.block_head ∧
      p4.total_blocks = ex_p2.total_blocks ∧ p4.total_units = ex_p2.total_units ∧
      p4.block_head = ex_p2.block_head ∧
      p4.free_list_head = ex_p2.free_list_head ∧ p4.free_count = ex_p2.free_count :=
  ⟨by decide,
    lifo_reuse 8 24 ex_malloc ex_p0 ex_p2 ex_m0 ex_m1 ex_g2 ex_create ex_reach2
      4104 4112 (by decide) (by decide) (by decide) ex_malloc2 ex_malloc2⟩

theorem live_units_disjoint_witness :
    Reach ex_p0 ex_m0 ex_p2 ex_m1 ex_g2 ∧
    ((∀ a ∈ ex_g2.live, ∀ b ∈ ex_g2.live, a ≠ b →
        a + ex_p2.unit_size ≤ b ∨ b + ex_p2.unit_size ≤ a) ∧
      ex_g2.live.Nodup ∧
      ∀ (malloc : Nat → Nat) (p1 : mpool_s) (m1 : Mem) (r : Nat),
        (malloc (total_size ex_p2) = 0 ∨
          BlockFresh ex_g2.blocks (total_size ex_p2) (malloc (total_size ex_p2))) →
        mpool_alloc (some ex_p2) ex_m1 malloc = some (some p1, m1, r) → r ∉ ex_g2.live) :=
  ⟨ex_reach2,
    live_units_disjoint 8 24 ex_malloc ex_p0 ex_p2 ex_m0 ex_m1 ex_g2 ex_create ex_reach2⟩

theorem growth_correct_witness :
    (ex_p2.free_list_head = 0 ∧
      BlockFresh ex_g2.blocks (total_size ex_p2) (ex_malloc2 (total_size ex_p2)) ∧
      Geometry ex_p0 ∧ ex_p1.free_list_head ≠ 0) ∧
    (∃ p1 m1 r, mpool_alloc (some ex_p2) ex_m1 ex_malloc2 = some (some p1, m1, r) ∧ r ≠ 0 ∧
        p1.total_blocks = ex_p2.total_blocks + 1 ∧
        p1.total_units = ex_p2.total_units + ex_p2.block_data_size / ex_p2.unit_size) ∧
    (∃ q1 m1 r, mpool_alloc (some ex_p1) ex_m1 ex_malloc2 = some (some q1, m1, r) ∧ r ≠ 0 ∧
        q1.total_blocks = ex_p1.total_blocks ∧ q1.total_units = ex_p1.total_units) :=
  have h := growth_correct 8 24 ex_malloc ex_p0 ex_p2 ex_m0 ex_m1 ex_g2 ex_create ex_reach2
    ex_malloc2
  have h1 := h.1 (by decide) (by decide)
  ⟨by decide,
    (h1.2 ex_geometry).elim fun p1 e1 => e1.elim fun m1 e2 => e2.elim fun r e3 =>
      ⟨p1, m1, r, e3, h1.1 p1 m1 r e3⟩,
    h.2 ex_p1 ex_m1 (by decide)⟩

theorem stats_after_allocs_witness :
    (ex_g2.frees = 0 ∧ [4112].Nodup ∧ ∀ x ∈ [4112], x ∈ ex_g2.live) ∧
    ∃ st st2, mpool_get_stats (some ex_p2) (some ⟨0, 0, 0, 0⟩) = some st ∧
      st.unit_size = ex_p0.unit_size ∧
      st.total_blocks = ceil_div ex_g2.allocs (units_per_block ex_p0) ∧
      st.total_units = units_per_block ex_p0 * ceil_div ex_g2.allocs (units_per_block ex_p0) ∧
      ex_g2.allocs ≤ st.total_units ∧
      st.free_units = st.total_units - ex_g2.allocs ∧
      mpool_get_stats (mpool_free_all (some ex_p2) ex_m1 [4112]).1 (some ⟨0, 0, 0, 0⟩) =
        some st2 ∧
      st2.free_units = st.free_units + [4112].length ∧
      st2.total_blocks = st.total_blocks ∧ st2.total_units = st.total_units :=
  ⟨by decide,
    stats_after_allocs 8 24 ex_malloc ex_p0 ex_p2 ex_m0 ex_m1 ex_g2 ex_create
      ex_reach2 (by decide) ⟨0, 0, 0, 0⟩ [4112] (by decide) (by decide)⟩

theorem ex16_create : mpool_create 16 40 ex_malloc = some ex16_p0 := by decide

theorem ex16_alloc1 :
    mpool_alloc (some ex16_p0) ex_m0 ex_malloc = some (some ex16_p1, ex16_m1, 4120) := rfl

theorem ex16_reach1 : Reach ex16_p0 ex_m0 ex16_p1 ex16_m1 ex16_g1 :=
  Reach.alloc_grow ex_malloc Reach.init rfl (by decide) ex16_alloc1

/-- C11 (as stated, refuted). The pool `mpool_create(16, 40)` obtains its first block at
4096 and its first `mpool_alloc` returns 4120: the offset 24 from the start of the block is
not a multiple of the unit size 16 (the offset from the start of the payload, 16, is). -/
theorem alloc_address_block_offset_counterexample :
    mpool_create 16 40 ex_malloc = some ex16_p0 ∧
      Reach ex16_p0 ex_m0 ex16_p1 ex16_m1 ex16_g1 ∧
      mpool_alloc (some ex16_p0) ex_m0 ex_malloc = some (some ex16_p1, ex16_m1, 4120) ∧
      ex16_g1.blocks = [4096] ∧ ex16_p1.unit_size = 16 ∧
      ¬ ∃ b ∈ ex16_g1.blocks, b ≤ 4120 ∧ ex16_p1.unit_size ∣ 4120 - b :=
  ⟨ex16_create, ex16_reach1, ex16_alloc1, rfl, rfl, by decide⟩

theorem alloc_address_in_payload_witness :
    mpool_create 16 40 ex_malloc = some ex16_p0 ∧
      Reach ex16_p0 ex_m0 ex16_p1 ex16_m1 ex16_g1 ∧
      ∃! b, b ∈ ex16_g1.blocks ∧ b + sizeof_mpool_block_t ≤ 4120 ∧
        4120 + ex16_p1.unit_size ≤ b + sizeof_mpool_block_t + ex16_p1.block_data_size ∧
        ex16_p1.unit_size ∣ 4120 - (b + sizeof_mpool_block_t) :=
  ⟨ex16_create, ex16_reach1,
    (alloc_address_in_payload 16 40 ex_malloc ex16_p0 ex16_p1 ex_m0 ex16_m1 ex16_g1
      ex16_create ex16_reach1).1 4120 (by decide)⟩

theorem teardown_complete_witness :
    mpool_create 8 24 ex_malloc = some ex_p0 ∧ Reach ex_p0 ex_m0 ex_p2 ex_m1 ex_g2 ∧
      ex_p2.total_blocks ≤ 1 ∧
      (Chain ex_m1 ex_p2.block_head ex_g2.blocks ∧
        ex_g2.blocks.length = ex_p2.total_blocks ∧ ex_g2.blocks.Nodup ∧
        mpool_destroy (some ex_p2) 1024 ex_m1 1 = some (ex_g2.blocks ++ [1024]) ∧
        (ex_g2.blocks ++ [1024]).length = ex_p2.total_blocks + 1) :=
  ⟨ex_create, ex_reach2, by decide,
    teardown_complete 8 24 ex_malloc ex_p0 ex_p2 ex_m0 ex_m1 ex_g2 ex_create ex_reach2
      1024 1 (by decide)⟩

/-- C14 (evaluation). In the pool `mpool_create(8, 24)` with its first block at 4096 the
payload starts at 4104 and holds the units 4104 and 4112.  After the growth the head of
the free list is 4112, whose link is 4104, whose link is `NULL`: the loop pushed the
lowest unit first.  The allocation that triggered the growth returns 4112, the highest
unit, and the next one returns 4104. -/
theorem growth_push_order_evaluation :
    (mpool_grow ex_p0 ex_m0 ex_malloc).map (fun r => r.2.1.free_list_head) =
        some (4096 + sizeof_mpool_block_t + 1 * 8) ∧
      ex_m1 (4096 + sizeof_mpool_block_t + 1 * 8) = 4096 + sizeof_mpool_block_t + 0 * 8 ∧
      ex_m1 (4096 + sizeof_mpool_block_t + 0 * 8) = 0 ∧
      mpool_alloc (some ex_p0) ex_m0 ex_malloc =
        some (some ex_p1, ex_m1, 4096 + sizeof_mpool_block_t + 1 * 8) ∧
      mpool_alloc (some ex_p1) ex_m1 ex_malloc =
        some (some ex_p2, ex_m1, 4096 + sizeof_mpool_block_t + 0 * 8) :=
  ⟨by decide, by decide, by decide, rfl, rfl⟩

theorem free_list_length_witness :
    mpool_create 8 24 ex_malloc = some ex_p0 ∧ Reach ex_p0 ex_m0 ex_p1 ex_m1 ex_g1 ∧
      (∃ fl, Chain ex_m1 ex_p1.free_list_head fl ∧ fl.length = ex_p1.free_count) ∧
      ∀ (malloc : Nat → Nat) (p1 : mpool_s) (m1 : Mem) (r : Nat),
        (malloc (total_size ex_p1) = 0 ∨
          BlockFresh ex_g1.blocks (total_size ex_p1) (malloc (total_size ex_p1))) →
        mpool_alloc (some ex_p1) ex_m1 malloc = some (some p1, m1, r) → r ≠ 0 →
        p1.free_count + 1 =
          ex_p1.free_count +
            (if ex_p1.free_list_head = 0 then units_per_block ex_p1 else 0) :=
  ⟨ex_create, ex_reach1,
    free_list_length 8 24 ex_malloc ex_p0 ex_p1 ex_m0 ex_m1 ex_g1 ex_create ex_reach1⟩

theorem free_list_membership_witness :
    mpool_create 8 24 ex_malloc = some ex_p0 ∧ Reach ex_p0 ex_m0 ex_p1 ex_m1 ex_g1 ∧
      ∃ fl, Chain ex_m1 ex_p1.free_list_head fl ∧ fl.Nodup ∧
        (∀ x ∈ allUnits ex_p1.unit_size (units_per_block ex_p1) ex_g1.blocks,
          x ∈ fl ↔ x ∉ ex_g1.live) ∧
        (∀ x ∈ ex_g1.live, x ∉ fl) ∧
        (∀ x ∈ fl, x ∈ allUnits ex_p1.unit_size (units_per_block ex_p1) ex_g1.blocks) :=
  ⟨ex_create, ex_reach1,
    free_list_membership 8 24 ex_malloc ex_p0 ex_p1 ex_m0 ex_m1 ex_g1 ex_create ex_reach1⟩

theorem alloc_free_round_trip_witness :
    mpool_create 8 24 ex_malloc = some ex_p0 ∧ Reach ex_p0 ex_m0 ex_p1 ex_m1 ex_g1 ∧
      ex_p1.free_list_head ≠ 0 ∧
      ∃ p1 m1 r, mpool_alloc (some ex_p1) ex_m1 ex_malloc2 = some (some p1, m1, r) ∧
        r = ex_p1.free_list_head ∧ m1 = ex_m1 ∧ p1.free_list_head = ex_m1 r ∧
        p1.total_blocks = ex_p1.total_blocks ∧ p1.total_units = ex_p1.total_units ∧
        p1.free_count + 1 = ex_p1.free_count ∧
        mpool_free (some p1) m1 r = (some ex_p1, ex_m1) :=
  ⟨ex_create, ex_reach1, by decide,
    alloc_free_round_trip 8 24 ex_malloc ex_p0 ex_p1 ex_m0 ex_m1 ex_g1 ex_create ex_reach1
      (by decide) ex_malloc2⟩

theorem unit_count_invariant_witness :
    mpool_create 8 24 ex_malloc = some ex_p0 ∧ ReachAny ex_p0 ex_m0 ex_p2 ex_m1 [4096] ∧
      ex_p2.total_units = ex_p2.total_blocks * (ex_p2.block_data_size / ex_p2.unit_size) ∧
      (∀ ptr, ∃ p1 m1, mpool_free (some ex_p2) ex_m1 ptr = (some p1, m1) ∧
        p1.total_blocks = ex_p2.total_blocks ∧ p1.total_units = ex_p2.total_units) ∧
      ∀ (malloc : Nat → Nat) (p1 : mpool_s) (m1 : Mem) (r : Nat),
        (malloc (total_size ex_p2) = 0 ∨
          BlockFresh [4096] (total_size ex_p2) (malloc (total_size ex_p2))) →
        mpool_alloc (some ex_p2) ex_m1 malloc = some (some p1, m1, r) →
        ex_p2.total_blocks ≤ p1.total_blocks ∧ ex_p2.total_units ≤ p1.total_units :=
  ⟨ex_create, ex_reach2.toAny,
    unit_count_invariant 8 24 ex_malloc ex_p0 ex_p2 ex_m0 ex_m1 [4096] ex_create
      ex_reach2.toAny⟩

theorem fresh_block_alloc_order_witness :
    (mpool_create 8 24 ex_malloc = some ex_p0 ∧ Reach ex_p0 ex_m0 ex_p2 ex_m1 ex_g2 ∧
      ex_p2.free_list_head = 0 ∧
      BlockFresh ex_g2.blocks (total_size ex_p2) (ex_malloc2 (total_size ex_p2)) ∧
      [ex_malloc2].length + 1 = units_per_block ex_p2 ∧ Geometry ex_p0) ∧
    ∃ p1 m1 rs,
      mpool_alloc_all (some ex_p2) ex_m1 [ex_malloc2, ex_malloc2] = some (p1, m1, rs) ∧
      rs = [8208, 8200] ∧ rs.Pairwise (fun x y => y < x) ∧
      ∃ q, p1 = some q ∧ q.free_list_head = 0 ∧ q.free_count = 0 ∧
        q.total_blocks = ex_p2.total_blocks + 1 ∧
        q.total_units = ex_p2.total_units + units_per_block ex_p2 :=
  have h := fresh_block_alloc_order 8 24 ex_malloc ex_p0 ex_p2 ex_m0 ex_m1 ex_g2 ex_create
    ex_reach2 rfl ex_malloc2 [ex_malloc2] (by decide) (by decide)
  ⟨⟨ex_create, ex_reach2, rfl, by decide, by decide, ex_geometry⟩,
    (h.2 ex_geometry).elim fun p1 e1 => e1.elim fun m1 e2 => e2.elim fun rs e3 =>
      ⟨p1, m1, rs, e3, (h.1 p1 m1 rs e3).1, (h.1 p1 m1 rs e3).2.2.2.1,
        (h.1 p1 m1 rs e3).2.2.2.2⟩⟩

end MPool
